import Mathlib

/-!
Verification of the CFG-to-CNF converter and CYK parser
(`grammar.py`, `cnf_converter.py`, `cyk_parser.py`).

Shallow embedding conventions:
  * Python `str` symbols are `String`; Python lists are `List`.
  * A Python `dict` (insertion ordered) is an association list
    `List (String × β)`; reads take the first matching key, exactly as a
    dict does (a dict cannot hold a key twice, so theorems that need it
    assume `Nodup` keys — an invariant of every dict).
  * A Python `set` is a duplicate-free `List` built by `setAdd`; only
    membership in it is ever meaningful, iteration order of a set is
    arbitrary in Python and list order stands in for it.
  * `while changed:` fixpoint loops become `iterFix step fuel s0`: `iterFix`
    stops as soon as a pass adds nothing, exactly like the `changed` flag;
    the fuel is chosen so that the loop provably reaches its fixpoint
    (each changing pass adds at least one element of a finite universe).
  * `print` calls and the elapsed-time component of `parse` are
    informational only and are dropped.
-/

/-! ## Generic list helpers (Python set/dict operations) -/

/-- Python `set.add`: append the element unless it is already present. -/
def setAdd [DecidableEq α] (s : List α) (x : α) : List α :=
  if x ∈ s then s else s ++ [x]

/-- Python `set.discard`: remove the element (sets hold no duplicates, so
removing every copy models it). -/
def setDiscard [DecidableEq α] (s : List α) (x : α) : List α :=
  s.filter (fun y => y ≠ x)

/-- Iterated `set.add` over a list (e.g. `set(xs)` built in list order). -/
def setAddAll [DecidableEq α] (s : List α) (xs : List α) : List α :=
  xs.foldl setAdd s

theorem mem_setAdd [DecidableEq α] {s : List α} {x a : α} :
    a ∈ setAdd s x ↔ a ∈ s ∨ a = x := by
  unfold setAdd
  split
  · constructor
    · exact Or.inl
    · rintro (h | rfl) <;> assumption
  · simp [List.mem_append]

theorem mem_setAddAll [DecidableEq α] {xs s : List α} {a : α} :
    a ∈ setAddAll s xs ↔ a ∈ s ∨ a ∈ xs := by
  induction xs generalizing s with
  | nil => simp [setAddAll]
  | cons x xs ih =>
    show a ∈ setAddAll (setAdd s x) xs ↔ _
    rw [ih, mem_setAdd]
    simp only [List.mem_cons]
    tauto

/-- Look a key up in an association list (first match), with a default:
reading `d[k]` for a `defaultdict(list)` (and for a plain dict wherever the
code guarantees the key is present). -/
def dictGetD (ps : List (String × List (List String))) (k : String) :
    List (List String) :=
  match ps with
  | [] => []
  | (v, rs) :: rest => if v = k then rs else dictGetD rest k

/-- `k in d` for a Python dict. -/
def dictHasKey (ps : List (String × List (List String))) (k : String) : Bool :=
  match ps with
  | [] => false
  | (v, _) :: rest => if v = k then true else dictHasKey rest k

/-- Python `d[k] = v`: replace the value of an existing key in place,
otherwise append the new key at the end (dicts are insertion ordered). -/
def dictSet (ps : List (String × List (List String))) (k : String)
    (v : List (List String)) : List (String × List (List String)) :=
  match ps with
  | [] => [(k, v)]
  | (v₀, rs) :: rest =>
    if v₀ = k then (v₀, v) :: rest else (v₀, rs) :: dictSet rest k v

/-- Python `d[k].append(x)` on a `defaultdict(list)`: append to the existing
key's list, creating the key at the end when absent. -/
def dictAppend (ps : List (String × List (List String))) (k : String)
    (x : List String) : List (String × List (List String)) :=
  match ps with
  | [] => [(k, [x])]
  | (v, rs) :: rest =>
    if v = k then (v, rs ++ [x]) :: rest else (v, rs) :: dictAppend rest k x

/-- `del d[k]` for a Python dict. -/
def dictDelete (ps : List (String × List (List String))) (k : String) :
    List (String × List (List String)) :=
  match ps with
  | [] => []
  | (v, rs) :: rest => if v = k then rest else (v, rs) :: dictDelete rest k

theorem dictGetD_dictSet_self (ps : List (String × List (List String)))
    (k : String) (v : List (List String)) : dictGetD (dictSet ps k v) k = v := by
  induction ps with
  | nil => simp [dictSet, dictGetD]
  | cons p rest ih =>
    obtain ⟨v₀, rs⟩ := p
    by_cases h : v₀ = k <;> simp [dictSet, dictGetD, h, ih]

theorem dictGetD_dictSet_other (ps : List (String × List (List String)))
    (k k₀ : String) (v : List (List String)) (h : k₀ ≠ k) :
    dictGetD (dictSet ps k v) k₀ = dictGetD ps k₀ := by
  induction ps with
  | nil =>
    simp only [dictSet, dictGetD]
    rw [if_neg (fun h₂ => h h₂.symm)]
  | cons p rest ih =>
    obtain ⟨v₀, rs⟩ := p
    by_cases hv : v₀ = k
    · subst hv
      simp only [dictSet, if_pos rfl, dictGetD]
      rw [if_neg (fun h₂ : v₀ = k₀ => h h₂.symm), if_neg (fun h₂ : v₀ = k₀ => h h₂.symm)]
    · simp only [dictSet, if_neg hv, dictGetD, ih]

/-- One `while changed:` loop: run `step` until it makes no change, with
enough fuel to provably get there. -/
def iterFix [DecidableEq α] (step : α → α) : Nat → α → α
  | 0, s => s
  | fuel + 1, s => if step s = s then s else iterFix step fuel (step s)

/-! ## The Grammar model (`grammar.py`) -/

/-- `Grammar.__init__`: `productions` is a `defaultdict(list)` mapping a
left symbol to its list of right-hand sides, `terminals` / `non_terminals`
are sets, `start_symbol` starts out `None`. -/
structure Grammar where
  productions : List (String × List (List String)) := []
  terminals : List String := []
  non_terminals : List String := []
  start_symbol : Option String := none
deriving DecidableEq

namespace Grammar

/-- The spelling test of `add_production` for one right-hand-side symbol:
`(symbol and not symbol[0].isupper()) or symbol in ['epsilon', 'ε', '']`.
Python's `str.isupper` on the one-character slice agrees with `Char.isUpper`
on every symbol the repository uses (ASCII plus the lowercase ε). -/
def classifiedAsTerminal (symbol : String) : Bool :=
  (decide (symbol ≠ "") && !(symbol.front.isUpper))
    || symbol ∈ (["epsilon", "ε", ""] : List String)

/-- `Grammar.add_production` (grammar.py:17-41): append `right` to `left`'s
production list, register `left` as a nonterminal, and classify each
right-hand-side symbol by spelling, adding the lowercase/special ones to
`terminals` and silently skipping the uppercase ones.  The only exception the
Python code can raise is the `ValueError` for a non-list `right`, which the
types rule out here; no unclassified-symbol error exists. -/
def add_production (g : Grammar) (left : String) (right : List String) : Grammar :=
  { g with
    productions := dictAppend g.productions left right
    non_terminals := setAdd g.non_terminals left
    terminals := right.foldl
      (fun ts symbol => if classifiedAsTerminal symbol then setAdd ts symbol else ts)
      g.terminals }

/-- `Grammar.set_start_symbol` (grammar.py:43-51). -/
def set_start_symbol (g : Grammar) (symbol : String) : Grammar :=
  { g with start_symbol := some symbol, non_terminals := setAdd g.non_terminals symbol }

/-- The per-production body of `is_in_cnf`'s loop (grammar.py:63-85):
empty right-hand sides only on the start symbol, length 1 must be a
terminal, length 2 must be two nonterminals, longer is refused. -/
def cnfProdOk (g : Grammar) (startSym : String) (var : String)
    (prod : List String) : Bool :=
  match prod with
  | [] => var = startSym
  | [s] => s ∈ g.terminals
  | [s₁, s₂] => s₁ ∈ g.non_terminals && s₂ ∈ g.non_terminals
  | _ => false

/-- `Grammar.is_in_cnf` (grammar.py:53-87). -/
def is_in_cnf (g : Grammar) : Bool :=
  match g.start_symbol with
  | none => false
  | some s =>
    g.productions.all (fun p => p.2.all (fun prod => cnfProdOk g s p.1 prod))

/-- `Grammar.copy` (grammar.py:108-124): a deep copy — sets copied, every
production list copied element by element. -/
def copy (g : Grammar) : Grammar :=
  { start_symbol := g.start_symbol
    terminals := g.terminals
    non_terminals := g.non_terminals
    productions := g.productions.map (fun p => (p.1, p.2.map id)) }

theorem copy_eq (g : Grammar) : g.copy = g := by
  cases g with
  | mk ps ts nts ss => simp [copy]

/-- `Grammar.remove_production` (grammar.py:208-223): remove the first
occurrence of `right` from `left`'s list when present; if the list becomes
empty, delete the key and, unless `left` is the start symbol, discard it
from the nonterminal set. -/
def remove_production (g : Grammar) (left : String) (right : List String) : Grammar :=
  if dictHasKey g.productions left ∧ right ∈ dictGetD g.productions left then
    if (dictGetD g.productions left).erase right = [] then
      { g with
        productions := dictDelete g.productions left
        non_terminals :=
          if g.start_symbol ≠ some left then setDiscard g.non_terminals left
          else g.non_terminals }
    else
      { g with
        productions := dictSet g.productions left ((dictGetD g.productions left).erase right) }
  else g

end Grammar

/-! ## The CNF converter (`cnf_converter.py`) -/

/-- `CNFConverter.__init__` keeps a pristine copy of the input next to the
working copy and a fresh-variable counter (`step_counter` only numbers the
printed banners and is dropped). -/
structure CNFConverter where
  original_grammar : Grammar
  grammar : Grammar
  new_var_counter : Nat
deriving DecidableEq

namespace CNFConverter

def init (grammar : Grammar) : CNFConverter :=
  { original_grammar := grammar.copy, grammar := grammar.copy, new_var_counter := 0 }

/-- The candidate loop of `generate_new_variable` (cnf_converter.py:18-32):
try `f"{base}{counter}"`, bump the counter, accept the first name not among
the nonterminals.  The loop always terminates because the candidate names
are pairwise distinct and the nonterminal set is finite; `nts.length + 1`
tries are provably enough (see `generate_new_variable_fresh`). -/
def genVarLoop (base : String) (nts : List String) : Nat → Nat → String × Nat
  | 0, counter => (base ++ Nat.repr counter, counter + 1)
  | fuel + 1, counter =>
    let var := base ++ Nat.repr counter
    if var ∈ nts then genVarLoop base nts fuel (counter + 1) else (var, counter + 1)

def generate_new_variable (base : String) (c : CNFConverter) : String × CNFConverter :=
  let r :=
    genVarLoop base c.grammar.non_terminals (c.grammar.non_terminals.length + 1)
      c.new_var_counter
  (r.1, { c with new_var_counter := r.2 })

/-- The direct pass of `find_nullable_symbols` (cnf_converter.py:58-62):
symbols with a right-hand side that is empty or the single symbol `ε`. -/
def nullableDirect (g : Grammar) : List String :=
  g.productions.foldl
    (fun nullable p =>
      p.2.foldl
        (fun nullable prod =>
          match prod with
          | [] => setAdd nullable p.1
          | [s] => if s = "ε" then setAdd nullable p.1 else nullable
          | _ => nullable)
        nullable)
    []

/-- One propagation pass of `find_nullable_symbols` (cnf_converter.py:64-73):
a symbol not yet nullable becomes nullable when some non-empty right-hand
side consists entirely of nullable symbols; additions are visible to the
later items of the same pass, as with Python's in-place `set.add`. -/
def nullablePass (ps : List (String × List (List String))) (nullable : List String) :
    List String :=
  ps.foldl
    (fun nullable p =>
      if p.1 ∈ nullable then nullable
      else if p.2.any (fun prod => prod ≠ [] && prod.all (fun s => s ∈ nullable)) then
        nullable ++ [p.1]
      else nullable)
    nullable

def find_nullable_symbols (g : Grammar) : List String :=
  iterFix (nullablePass g.productions) (g.productions.length + 1) (nullableDirect g)

/-- The per-index body of `generate_nullable_combinations`'s mask loop
(cnf_converter.py:95-104), threading the bit index: a set bit keeps the
symbol, an unset bit is allowed only for a nullable symbol. -/
def maskCombination (nullable : List String) (mask : Nat) :
    List String → Nat → Option (List String)
  | [], _ => some []
  | s :: rest, i =>
    if mask.testBit i then (maskCombination nullable mask rest (i + 1)).map (s :: ·)
    else if s ∈ nullable then maskCombination nullable mask rest (i + 1)
    else none

/-- Python's seen-set deduplication (cnf_converter.py:109-116): keep the
first occurrence of each combination. -/
def seenDedup (l : List (List String)) : List (List String) :=
  l.foldl (fun acc combo => if combo ∈ acc then acc else acc ++ [combo]) []

/-- `CNFConverter.generate_nullable_combinations` (cnf_converter.py:77-118):
enumerate all `2^n` masks, keep the valid non-empty combinations,
deduplicate. -/
def generate_nullable_combinations (production : List String)
    (nullable : List String) : List (List String) :=
  if production = [] then [[]]
  else
    seenDedup ((List.range (2 ^ production.length)).filterMap
      (fun mask =>
        match maskCombination nullable mask production 0 with
        | none => none
        | some combination => if combination = [] then none else some combination))

/-- The per-symbol rewriting loop of `eliminate_epsilon_productions`
(cnf_converter.py:133-145): non-ε right-hand sides are replaced by their
non-empty nullable combinations, deduplicated per left symbol. -/
def epsilonRewriteMap (ps : List (String × List (List String)))
    (nullable : List String) : List (String × List (List String)) :=
  ps.map (fun p =>
    (p.1,
      p.2.foldl
        (fun acc prod =>
          if prod ≠ [] ∧ prod ≠ ["ε"] then
            (generate_nullable_combinations prod nullable).foldl
              (fun acc combination =>
                if combination ≠ [] ∧ combination ∉ acc then acc ++ [combination]
                else acc)
              acc
          else acc)
        []))

/-- `CNFConverter.eliminate_epsilon_productions` (cnf_converter.py:120-162),
Stage A: rewrite every production, then, when the start symbol is nullable,
install a fresh start `S′` with `S′ → startSymbol` and — only when the old
start kept no non-empty production — `S′ → ε`. -/
def eliminate_epsilon_productions (c : CNFConverter) : CNFConverter :=
  match c.grammar.start_symbol with
  | some s₀ =>
    if s₀ ∈ find_nullable_symbols c.grammar then
      { (generate_new_variable "S" c).2 with
        grammar :=
          { c.grammar with
            productions :=
              if dictGetD (dictSet
                  (epsilonRewriteMap c.grammar.productions
                    (find_nullable_symbols c.grammar))
                  (generate_new_variable "S" c).1 [[s₀]]) s₀ = [] then
                dictAppend (dictSet
                  (epsilonRewriteMap c.grammar.productions
                    (find_nullable_symbols c.grammar))
                  (generate_new_variable "S" c).1 [[s₀]])
                  (generate_new_variable "S" c).1 []
              else
                dictSet
                  (epsilonRewriteMap c.grammar.productions
                    (find_nullable_symbols c.grammar))
                  (generate_new_variable "S" c).1 [[s₀]]
            start_symbol := some (generate_new_variable "S" c).1
            non_terminals := setAdd c.grammar.non_terminals (generate_new_variable "S" c).1 } }
    else
      { c with
        grammar :=
          { c.grammar with
            productions :=
              epsilonRewriteMap c.grammar.productions (find_nullable_symbols c.grammar) } }
  | none =>
    { c with
      grammar :=
        { c.grammar with
          productions :=
            epsilonRewriteMap c.grammar.productions (find_nullable_symbols c.grammar) } }

/-- The direct pairs of `find_unit_productions` (cnf_converter.py:173-177):
`(A, B)` for each production `A → B` with `B` a nonterminal. -/
def unitDirect (g : Grammar) : List (String × String) :=
  g.productions.foldl
    (fun pairs p =>
      p.2.foldl
        (fun pairs prod =>
          match prod with
          | [s] => if s ∈ g.non_terminals then setAdd pairs (p.1, s) else pairs
          | _ => pairs)
        pairs)
    []

/-- The `new_pairs` collection of one closure pass of
`find_unit_productions` (cnf_converter.py:182-188): the compositions
`(a, c)` of pairs `(a, b)` and `(b, c)` not yet present (a set, so also
deduplicated against itself). -/
def unitCollect (pairs : List (String × String)) : List (String × String) :=
  pairs.foldl
    (fun news p =>
      pairs.foldl
        (fun news q =>
          if p.2 = q.1 ∧ (p.1, q.2) ∉ pairs ∧ (p.1, q.2) ∉ news then
            news ++ [(p.1, q.2)]
          else news)
        news)
    []

/-- One closure pass (cnf_converter.py:179-189): collect the new
compositions, then add them after the double loop
(`unit_pairs.update(new_pairs)`). -/
def unitPass (pairs : List (String × String)) : List (String × String) :=
  pairs ++ unitCollect pairs

def find_unit_productions (g : Grammar) : List (String × String) :=
  iterFix unitPass
    (((unitDirect g).map Prod.fst ×ˢ (unitDirect g).map Prod.snd).dedup.length + 1)
    (unitDirect g)

/-- A unit right-hand side in the sense of `eliminate_unit_productions`
(cnf_converter.py:219,227): a single symbol that is a nonterminal. -/
def isUnitRhs (g : Grammar) (prod : List String) : Bool :=
  match prod with
  | [s] => s ∈ g.non_terminals
  | _ => false

/-- `CNFConverter.eliminate_unit_productions` (cnf_converter.py:193-234),
Stage B: for every left symbol, keep its non-unit right-hand sides and add
the non-unit right-hand sides of every `B` with `(A, B)` in the closure,
deduplicating throughout and dropping unit right-hand sides. -/
def eliminate_unit_productions (c : CNFConverter) : CNFConverter :=
  { c with
    grammar :=
      { c.grammar with
        productions := c.grammar.productions.map (fun p =>
          (p.1,
            (find_unit_productions c.grammar).foldl
              (fun acc pair =>
                if pair.1 = p.1 then
                  (dictGetD c.grammar.productions pair.2).foldl
                    (fun acc prod =>
                      if ¬isUnitRhs c.grammar prod ∧ prod ∉ acc then acc ++ [prod]
                      else acc)
                    acc
                else acc)
              (p.2.foldl
                (fun acc prod =>
                  if ¬isUnitRhs c.grammar prod ∧ prod ∉ acc then acc ++ [prod]
                  else acc)
                []))) } }

/-- One pass of `find_generating_symbols` (cnf_converter.py:245-253). -/
def generatingPass (ps : List (String × List (List String)))
    (generating : List String) : List String :=
  ps.foldl
    (fun generating p =>
      if p.1 ∈ generating then generating
      else if p.2.any (fun prod => prod ≠ [] && prod.all (fun s => s ∈ generating)) then
        generating ++ [p.1]
      else generating)
    generating

/-- `CNFConverter.find_generating_symbols` (cnf_converter.py:236-255),
seeded with `set(self.grammar.terminals)`. -/
def find_generating_symbols (g : Grammar) : List String :=
  iterFix (generatingPass g.productions) (g.productions.length + 1)
    (setAddAll [] g.terminals)

/-- One pass of `find_reachable_symbols` (cnf_converter.py:266-277): every
symbol of a right-hand side of an already-reachable key becomes reachable;
the new symbols are added after the pass. -/
def reachablePass (ps : List (String × List (List String)))
    (reachable : List String) : List String :=
  reachable ++
    reachable.foldl
      (fun news var =>
        (dictGetD ps var).foldl
          (fun news prod =>
            prod.foldl
              (fun news symbol =>
                if symbol ∉ reachable ∧ symbol ∉ news then news ++ [symbol] else news)
              news)
          news)
      []

/-- All symbols occurring in some right-hand side: the finite universe the
reachable fixpoint grows inside (together with the seed). -/
def rhsSymbols (ps : List (String × List (List String))) : List String :=
  ps.flatMap (fun p => p.2.flatMap id)

/-- `CNFConverter.find_reachable_symbols` (cnf_converter.py:257-279),
seeded with `{self.grammar.start_symbol}`. -/
def find_reachable_symbols (g : Grammar) : List String :=
  let seed := match g.start_symbol with
    | some s => [s]
    | none => []
  iterFix (reachablePass g.productions)
    ((seed ++ rhsSymbols g.productions).dedup.length + 1) seed

/-- `CNFConverter.eliminate_useless_symbols` (cnf_converter.py:281-320),
Stage C: keep the productions of generating keys whose right-hand sides
are all generating, then keep the reachable keys, then reset
`non_terminals` to exactly the remaining keys. -/
def eliminate_useless_symbols (c : CNFConverter) : CNFConverter :=
  let g := c.grammar
  let generating := find_generating_symbols g
  let filtered := g.productions.filterMap (fun p =>
    if p.1 ∈ generating then
      some (p.1, p.2.filter (fun prod => prod.all (fun s => s ∈ generating)))
    else none)
  let g₂ := { g with productions := filtered }
  let reachable := find_reachable_symbols g₂
  let final := filtered.filterMap (fun p =>
    if p.1 ∈ reachable then some p else none)
  { c with
    grammar :=
      { g with
        productions := final
        non_terminals := setAddAll [] (final.map Prod.fst) } }

/-- `CNFConverter._convert_long_production` (cnf_converter.py:348-376):
rewrite `[a₁, …, aₖ]` into a right-branching chain of fresh `Y` variables,
threading the production dict, the counter and the nonterminal set; the
recursion's base case appends the short remainder if not already present. -/
def convertLongProduction (var : String) (production : List String)
    (st : List (String × List (List String)) × Nat × List String) :
    List (String × List (List String)) × Nat × List String :=
  match production with
  | a :: rest₁ :: rest₂ :: rest =>
    let nts := st.2.2
    let gen := genVarLoop "Y" nts (nts.length + 1) st.2.1
    let new_var := gen.1
    let ps₂ := dictAppend st.1 var [a, new_var]
    let st₃ := convertLongProduction new_var (rest₁ :: rest₂ :: rest) (ps₂, gen.2, nts)
    (st₃.1, st₃.2.1, setAdd st₃.2.2 new_var)
  | short =>
    if short ∈ dictGetD st.1 var then st
    else (dictAppend st.1 var short, st.2.1, st.2.2)

/-- `CNFConverter.convert_to_binary_form` (cnf_converter.py:322-346),
Stage D: productions of length at most two are kept as they are, longer
ones are binarized by `convertLongProduction`. -/
def convert_to_binary_form (c : CNFConverter) : CNFConverter :=
  let st₀ : List (String × List (List String)) × Nat × List String :=
    ([], c.new_var_counter, c.grammar.non_terminals)
  let st := c.grammar.productions.foldl
    (fun st p =>
      let st₁ := (dictSet st.1 p.1 [], st.2.1, st.2.2)
      p.2.foldl
        (fun st prod =>
          if prod.length ≤ 2 then (dictAppend st.1 p.1 prod, st.2.1, st.2.2)
          else convertLongProduction p.1 prod st)
        st₁)
    st₀
  { c with
    new_var_counter := st.2.1
    grammar := { c.grammar with productions := st.1, non_terminals := st.2.2 } }

/-- `CNFConverter.to_cnf` (cnf_converter.py:378-415): Stage A, then B, then
C, then D; the final `is_in_cnf` check only selects the success or the
warning banner (returned here as the `Bool`), the grammar is returned either
way. -/
def to_cnf (c : CNFConverter) : Grammar × Bool × CNFConverter :=
  if (convert_to_binary_form (eliminate_useless_symbols (eliminate_unit_productions
      (eliminate_epsilon_productions c)))).grammar.is_in_cnf then
    ((convert_to_binary_form (eliminate_useless_symbols (eliminate_unit_productions
        (eliminate_epsilon_productions c)))).grammar, true,
      convert_to_binary_form (eliminate_useless_symbols (eliminate_unit_productions
        (eliminate_epsilon_productions c))))
  else
    ((convert_to_binary_form (eliminate_useless_symbols (eliminate_unit_productions
        (eliminate_epsilon_productions c)))).grammar, false,
      convert_to_binary_form (eliminate_useless_symbols (eliminate_unit_productions
        (eliminate_epsilon_productions c))))

end CNFConverter

/-! ## The CYK recognizer (`cyk_parser.py`) -/

namespace CYK

/-- The `terminal_producers` index of `_precompute_production_maps`
(cyk_parser.py:47-57), read at one terminal: the set of left symbols with
a unary production of that terminal.  The Python dict of sets is embedded
as a function, collected in production order. -/
def terminal_producers (g : Grammar) (terminal : String) : List String :=
  g.productions.foldl
    (fun acc p =>
      p.2.foldl
        (fun acc prod =>
          match prod with
          | [s] => if s ∈ g.terminals ∧ s = terminal then setAdd acc p.1 else acc
          | _ => acc)
        acc)
    []

/-- The `binary_producers` index (cyk_parser.py:59-64) read at one ordered
pair: the set of left symbols with that two-symbol right-hand side. -/
def binary_producers (g : Grammar) (pair : String × String) : List String :=
  g.productions.foldl
    (fun acc p =>
      p.2.foldl
        (fun acc prod =>
          match prod with
          | [s₁, s₂] => if (s₁, s₂) = pair then setAdd acc p.1 else acc
          | _ => acc)
        acc)
    []

/-- The table cell `table[i][i+d]` after `_fill_diagonal` and `_fill_table`
(cyk_parser.py:96-127).  The imperative fill computes cells in increasing
span length, so each cell is a pure function of the shorter-span cells:
the diagonal collects the terminal producers of the token, an interior
cell collects, over every split point `k = i..j-1` and every pair of
symbols of the two sub-cells, the binary producers not yet present.
Python iterates the sub-cells as sets, whose order is arbitrary; list
order stands in for it, and only membership in a cell is meaningful.
The recursion is bounded structurally by a fuel that always dominates the
span length (`cellFuel_congr` shows any sufficient fuel gives the same
table), keeping the definition kernel-computable. -/
def cellFuel (g : Grammar) (toks : List String) : Nat → Nat → Nat → List String
  | 0, _, _ => []
  | _ + 1, 0, i => terminal_producers g (toks.getD i "")
  | fuel + 1, d + 1, i =>
    (List.range (d + 1)).foldl
      (fun acc k =>
        (cellFuel g toks fuel k i).foldl
          (fun acc left_var =>
            (cellFuel g toks fuel (d - k) (i + k + 1)).foldl
              (fun acc right_var =>
                (binary_producers g (left_var, right_var)).foldl
                  (fun acc producer => setAdd acc producer)
                  acc)
              acc)
          acc)
      []

def cell (g : Grammar) (toks : List String) (d i : Nat) : List String :=
  cellFuel g toks (d + 1) d i

/-- The accepted component of `CYKParser.parse` (cyk_parser.py:66-94): an
empty token list fails fast; otherwise the sentence is accepted iff the
start symbol is in `table[0][n-1]` (a `None` start symbol is in no cell).
The elapsed time and the reconstructed tree are informational (the tree is
built only when accepted and is not consulted by any claim). -/
def parse (g : Grammar) (sentence : List String) : Bool :=
  if sentence = [] then false
  else
    match g.start_symbol with
    | some s => s ∈ cell g sentence (sentence.length - 1) 0
    | none => false

end CYK

/-! ## Basic lemmas about the helpers -/

theorem foldl_mem_mono {α β : Type} {f : List α → β → List α}
    (hf : ∀ acc x a, a ∈ acc → a ∈ f acc x) :
    ∀ (l : List β) (acc : List α) (a : α), a ∈ acc → a ∈ l.foldl f acc := by
  intro l
  induction l with
  | nil => intro acc a h; exact h
  | cons x xs ih => intro acc a h; exact ih (f acc x) a (hf acc x a h)

theorem dictGetD_dictAppend_self (ps : List (String × List (List String)))
    (k : String) (x : List String) :
    dictGetD (dictAppend ps k x) k = dictGetD ps k ++ [x] := by
  induction ps with
  | nil => simp [dictAppend, dictGetD]
  | cons p rest ih =>
    obtain ⟨v, rs⟩ := p
    by_cases h : v = k <;> simp [dictAppend, dictGetD, h, ih]

theorem dictGetD_dictAppend_other (ps : List (String × List (List String)))
    (k k₀ : String) (x : List String) (h : k₀ ≠ k) :
    dictGetD (dictAppend ps k x) k₀ = dictGetD ps k₀ := by
  induction ps with
  | nil =>
    simp only [dictAppend, dictGetD]
    rw [if_neg (fun h₂ => h h₂.symm)]
  | cons p rest ih =>
    obtain ⟨v, rs⟩ := p
    by_cases hv : v = k
    · subst hv
      simp only [dictAppend, if_pos rfl, dictGetD]
      rw [if_neg (fun h₂ : v = k₀ => h h₂.symm), if_neg (fun h₂ : v = k₀ => h h₂.symm)]
    · simp only [dictAppend, if_neg hv, dictGetD, ih]

theorem exists_entry_of_mem_dictGetD {ps : List (String × List (List String))}
    {k : String} {y : List String} (h : y ∈ dictGetD ps k) :
    ∃ rs, (k, rs) ∈ ps ∧ y ∈ rs := by
  induction ps with
  | nil => simp [dictGetD] at h
  | cons p rest ih =>
    obtain ⟨v, rs⟩ := p
    by_cases hv : v = k
    · subst hv
      simp only [dictGetD, if_pos rfl] at h
      exact ⟨rs, List.mem_cons_self _ _, h⟩
    · simp only [dictGetD, if_neg hv] at h
      obtain ⟨rs₂, hmem, hy⟩ := ih h
      exact ⟨rs₂, List.mem_cons_of_mem _ hmem, hy⟩

theorem dictGetD_of_mem_nodup {ps : List (String × List (List String))}
    {k : String} {rs : List (List String)}
    (hnd : (ps.map Prod.fst).Nodup) (h : (k, rs) ∈ ps) : dictGetD ps k = rs := by
  induction ps with
  | nil => simp at h
  | cons p rest ih =>
    obtain ⟨v, rs₀⟩ := p
    simp only [List.map_cons, List.nodup_cons] at hnd
    rcases List.mem_cons.mp h with h₁ | h₂
    · obtain ⟨hk, hrs⟩ := Prod.mk.injEq .. ▸ h₁
      simp [dictGetD, hk.symm, (Prod.mk.injEq .. ▸ h₁).2]
    · have hne : v ≠ k := by
        intro he
        exact hnd.1 (he ▸ (List.mem_map.mpr ⟨(k, rs), h₂, rfl⟩))
      simp only [dictGetD, if_neg hne]
      exact ih hnd.2 h₂

theorem dictHasKey_false_of_not_mem {ps : List (String × List (List String))}
    {k : String} (h : k ∉ ps.map Prod.fst) : dictHasKey ps k = false := by
  induction ps with
  | nil => rfl
  | cons p rest ih =>
    obtain ⟨v, rs⟩ := p
    simp only [List.map_cons, List.mem_cons] at h
    push_neg at h
    show (if v = k then true else dictHasKey rest k) = false
    rw [if_neg (Ne.symm h.1)]
    exact ih h.2

theorem map_fst_dictDelete (ps : List (String × List (List String))) (k : String) :
    ∀ x, x ∈ (dictDelete ps k).map Prod.fst → x ∈ ps.map Prod.fst := by
  induction ps with
  | nil => intro x h; simp [dictDelete] at h
  | cons p rest ih =>
    intro x h
    obtain ⟨v, rs⟩ := p
    by_cases hv : v = k
    · simp only [dictDelete, if_pos hv] at h
      exact List.mem_cons_of_mem _ h
    · simp only [dictDelete, if_neg hv, List.map_cons, List.mem_cons] at h ⊢
      rcases h with h | h
      · exact Or.inl h
      · exact Or.inr (ih x h)

theorem dictHasKey_dictDelete_of_nodup {ps : List (String × List (List String))}
    {k : String} (hnd : (ps.map Prod.fst).Nodup) :
    dictHasKey (dictDelete ps k) k = false := by
  induction ps with
  | nil => rfl
  | cons p rest ih =>
    obtain ⟨v, rs⟩ := p
    simp only [List.map_cons, List.nodup_cons] at hnd
    by_cases hv : v = k
    · subst hv
      simp only [dictDelete, if_pos rfl]
      exact dictHasKey_false_of_not_mem hnd.1
    · simp only [dictDelete, if_neg hv, dictHasKey, if_neg hv]
      exact ih hnd.2

/-! ## Injectivity of `Nat.repr`, for fresh-variable generation -/

/-- Decimal value of a digit character. -/
def charVal (c : Char) : Nat := c.toNat - 48

/-- Left-to-right decimal value of a digit string, with accumulator. -/
def digitsVal (a : Nat) (l : List Char) : Nat :=
  l.foldl (fun a c => a * 10 + charVal c) a

/-- Appending the decimal digits of `n` to the accumulator. -/
def pushDigits (a n : Nat) : Nat :=
  if n < 10 then a * 10 + n else pushDigits a (n / 10) * 10 + n % 10
  termination_by n
  decreasing_by exact Nat.div_lt_self (by omega) (by omega)

theorem charVal_digitChar {m : Nat} (h : m < 10) : charVal (Nat.digitChar m) = m := by
  interval_cases m <;> decide

theorem digitsVal_toDigitsCore :
    ∀ (fuel n : Nat) (ds : List Char) (a : Nat), n < fuel →
      digitsVal a (Nat.toDigitsCore 10 fuel n ds) = digitsVal (pushDigits a n) ds := by
  intro fuel
  induction fuel with
  | zero => intro n ds a h; omega
  | succ fuel ih =>
    intro n ds a h
    by_cases h10 : n / 10 = 0
    · have hn : n < 10 := by omega
      have hmod : n % 10 = n := Nat.mod_eq_of_lt hn
      show digitsVal a (if n / 10 = 0 then _ :: ds else _) = _
      rw [if_pos h10]
      show digitsVal (a * 10 + charVal (Nat.digitChar (n % 10))) ds = _
      rw [hmod, charVal_digitChar hn]
      rw [pushDigits, if_pos hn]
    · have hge : 10 ≤ n := by
        by_contra hlt
        exact h10 (Nat.div_eq_of_lt (by omega))
      have hdiv : n / 10 < n := Nat.div_lt_self (by omega) (by omega)
      show digitsVal a (if n / 10 = 0 then _ else Nat.toDigitsCore 10 fuel (n / 10) _) = _
      rw [if_neg h10]
      rw [ih (n / 10) _ a (by omega)]
      show digitsVal (pushDigits a (n / 10) * 10 + charVal (Nat.digitChar (n % 10))) ds = _
      rw [charVal_digitChar (Nat.mod_lt n (by omega))]
      have hpush : pushDigits a n = pushDigits a (n / 10) * 10 + n % 10 := by
        rw [pushDigits]
        rw [if_neg (show ¬n < 10 by omega)]
      rw [hpush]

theorem pushDigits_zero : ∀ n, pushDigits 0 n = n := by
  intro n
  induction n using Nat.strong_induction_on with
  | _ n ih =>
    rw [pushDigits]
    by_cases h : n < 10
    · rw [if_pos h]; omega
    · rw [if_neg h, ih (n / 10) (Nat.div_lt_self (by omega) (by omega))]
      omega

theorem digitsVal_repr (n : Nat) : digitsVal 0 (Nat.repr n).data = n := by
  show digitsVal 0 (List.asString (Nat.toDigits 10 n)).data = n
  have hdata : (List.asString (Nat.toDigits 10 n)).data = Nat.toDigits 10 n := rfl
  rw [hdata]
  show digitsVal 0 (Nat.toDigitsCore 10 (n + 1) n []) = n
  rw [digitsVal_toDigitsCore (n + 1) n [] 0 (Nat.lt_succ_self n)]
  show pushDigits 0 n = n
  exact pushDigits_zero n

theorem repr_injective : Function.Injective Nat.repr := by
  intro m n h
  have hm := digitsVal_repr m
  rw [h, digitsVal_repr] at hm
  omega

theorem append_repr_injective (base : String) : ∀ m n,
    base ++ Nat.repr m = base ++ Nat.repr n → m = n := by
  intro m n h
  apply repr_injective
  have hdata : (base ++ Nat.repr m).data = (base ++ Nat.repr n).data := by rw [h]
  simp only [String.data_append] at hdata
  have := List.append_cancel_left hdata
  exact String.ext this

/-! ## Freshness of generated variables -/

theorem genVarLoop_fresh (base : String) (nts : List String) :
    ∀ (fuel counter : Nat),
      (∃ k < fuel, base ++ Nat.repr (counter + k) ∉ nts) →
      (CNFConverter.genVarLoop base nts fuel counter).1 ∉ nts := by
  intro fuel
  induction fuel with
  | zero =>
    intro counter h
    obtain ⟨k, hk, _⟩ := h
    omega
  | succ fuel ih =>
    intro counter h
    show (if base ++ Nat.repr counter ∈ nts then
        CNFConverter.genVarLoop base nts fuel (counter + 1)
      else (base ++ Nat.repr counter, counter + 1)).1 ∉ nts
    by_cases hmem : base ++ Nat.repr counter ∈ nts
    · rw [if_pos hmem]
      apply ih
      obtain ⟨k, hk, hfresh⟩ := h
      match k, hk with
      | 0, _ => exact absurd hmem (by simpa using hfresh)
      | k + 1, hk =>
        exact ⟨k, by omega, by rw [show counter + 1 + k = counter + (k + 1) by omega]; exact hfresh⟩
    · rw [if_neg hmem]
      exact hmem

theorem exists_fresh_candidate (base : String) (nts : List String) (counter : Nat) :
    ∃ k < nts.length + 1, base ++ Nat.repr (counter + k) ∉ nts := by
  by_contra hall
  push_neg at hall
  set f : Nat → String := fun k => base ++ Nat.repr (counter + k) with hf
  have hinj : Function.Injective f := by
    intro a b hab
    have := append_repr_injective base _ _ hab
    omega
  have hnd : ((List.range (nts.length + 1)).map f).Nodup :=
    (List.nodup_range _).map hinj
  have hsub : ∀ x ∈ (List.range (nts.length + 1)).map f, x ∈ nts := by
    intro x hx
    obtain ⟨k, hk, rfl⟩ := List.mem_map.mp hx
    exact hall k (List.mem_range.mp hk)
  have hsubF : ((List.range (nts.length + 1)).map f).toFinset ⊆ nts.toFinset := by
    intro x hx
    exact List.mem_toFinset.mpr (hsub x (List.mem_toFinset.mp hx))
  have hcard := Finset.card_le_card hsubF
  rw [List.toFinset_card_of_nodup hnd] at hcard
  simp only [List.length_map, List.length_range] at hcard
  have := List.toFinset_card_le nts
  omega

theorem generate_new_variable_fresh (base : String) (c : CNFConverter) :
    (CNFConverter.generate_new_variable base c).1 ∉ c.grammar.non_terminals :=
  genVarLoop_fresh base c.grammar.non_terminals _ _
    (exists_fresh_candidate base c.grammar.non_terminals c.new_var_counter)

theorem genVarLoop_fresh_any (base : String) (nts : List String) (counter : Nat) :
    (CNFConverter.genVarLoop base nts (nts.length + 1) counter).1 ∉ nts :=
  genVarLoop_fresh base nts _ _ (exists_fresh_candidate base nts counter)

/-! ## Reaching the fixpoint of a `while changed:` loop

Each loop's pass appends its new elements (all drawn from a fixed finite
universe, none already present), so a changing pass strictly grows the
membership count within the universe and the fuel below makes `iterFix`
reach a genuine fixpoint. -/

theorem iterFix_succ {α : Type} [DecidableEq α] (step : α → α) (fuel : Nat) (s : α) :
    iterFix step (fuel + 1) s = if step s = s then s else iterFix step fuel (step s) := rfl

theorem mem_iterFix_of_mem {α : Type} [DecidableEq α] {step : List α → List α}
    (hstep : ∀ s, ∃ news, step s = s ++ news) :
    ∀ (fuel : Nat) (s : List α) (a : α), a ∈ s → a ∈ iterFix step fuel s := by
  intro fuel
  induction fuel with
  | zero => intro s a h; exact h
  | succ fuel ih =>
    intro s a h
    rw [iterFix_succ]
    by_cases he : step s = s
    · rw [if_pos he]; exact h
    · rw [if_neg he]
      obtain ⟨news, hn⟩ := hstep s
      exact ih (step s) a (hn ▸ List.mem_append_left news h)

theorem iterFix_invariant {α : Type} [DecidableEq α] {step : List α → List α}
    {P : α → Prop}
    (hstep : ∀ s, (∀ x ∈ s, P x) → ∀ x ∈ step s, P x) :
    ∀ (fuel : Nat) (s : List α), (∀ x ∈ s, P x) → ∀ x ∈ iterFix step fuel s, P x := by
  intro fuel
  induction fuel with
  | zero => intro s h; exact h
  | succ fuel ih =>
    intro s h
    rw [iterFix_succ]
    by_cases he : step s = s
    · rw [if_pos he]; exact h
    · rw [if_neg he]
      exact ih (step s) (hstep s h)

theorem length_filter_le_of_imp {α : Type} {l : List α} {p q : α → Bool}
    (himp : ∀ x ∈ l, p x = true → q x = true) :
    (l.filter p).length ≤ (l.filter q).length := by
  induction l with
  | nil => simp
  | cons x xs ih =>
    have ihx := ih (fun y hy => himp y (List.mem_cons_of_mem x hy))
    by_cases hp : p x = true
    · rw [List.filter_cons_of_pos hp, List.filter_cons_of_pos (himp x (List.mem_cons_self x xs) hp)]
      simpa using ihx
    · rw [List.filter_cons_of_neg (by simpa using hp)]
      by_cases hq : q x = true
      · rw [List.filter_cons_of_pos hq]
        simp only [List.length_cons]
        omega
      · rw [List.filter_cons_of_neg (by simpa using hq)]
        exact ihx

theorem length_filter_lt_of_strict {α : Type} {l : List α} {p q : α → Bool}
    (himp : ∀ x ∈ l, p x = true → q x = true) {w : α} (hw : w ∈ l)
    (hq : q w = true) (hp : p w = false) :
    (l.filter p).length < (l.filter q).length := by
  induction l with
  | nil => simp at hw
  | cons x xs ih =>
    have himp₂ : ∀ y ∈ xs, p y = true → q y = true :=
      fun y hy => himp y (List.mem_cons_of_mem x hy)
    by_cases hx : w = x
    · subst hx
      rw [List.filter_cons_of_neg (by simp [hp]), List.filter_cons_of_pos hq]
      simp only [List.length_cons]
      exact Nat.lt_succ_of_le (length_filter_le_of_imp himp₂)
    · have hwxs : w ∈ xs := by
        rcases List.mem_cons.mp hw with h | h
        · exact absurd h hx
        · exact h
      have ihx := ih himp₂ hwxs
      by_cases hpx : p x = true
      · rw [List.filter_cons_of_pos hpx, List.filter_cons_of_pos (himp x (List.mem_cons_self x xs) hpx)]
        simpa using ihx
      · rw [List.filter_cons_of_neg (by simpa using hpx)]
        by_cases hqx : q x = true
        · rw [List.filter_cons_of_pos hqx]
          simp only [List.length_cons]
          omega
        · rw [List.filter_cons_of_neg (by simpa using hqx)]
          exact ihx

/-- Counting argument: if every pass on an invariant state appends only
fresh elements of the universe `U` and preserves the invariant, then with
fuel exceeding the number of universe elements missing from the seed, the
loop returns a literal fixpoint of the pass. -/
theorem iterFix_reaches_fix {α : Type} [DecidableEq α] {step : List α → List α}
    {Inv : List α → Prop} (U : List α)
    (hstep : ∀ s, Inv s → ∃ news, step s = s ++ news ∧ (∀ x ∈ news, x ∈ U ∧ x ∉ s))
    (hinv : ∀ s, Inv s → Inv (step s)) :
    ∀ (fuel : Nat) (s : List α), Inv s →
      (U.dedup.filter (fun x => x ∉ s)).length < fuel →
      step (iterFix step fuel s) = iterFix step fuel s := by
  intro fuel
  induction fuel with
  | zero => intro s _ h; omega
  | succ fuel ih =>
    intro s hI h
    rw [iterFix_succ]
    by_cases he : step s = s
    · rw [if_pos he, he]
    · rw [if_neg he]
      apply ih (step s) (hinv s hI)
      obtain ⟨news, heq, hnews⟩ := hstep s hI
      have hne : news ≠ [] := by
        intro hnil
        exact he (by rw [heq, hnil, List.append_nil])
      obtain ⟨w, hw⟩ := List.exists_mem_of_ne_nil news hne
      have hwU : w ∈ U := (hnews w hw).1
      have hws : w ∉ s := (hnews w hw).2
      have hmono : ∀ x, x ∉ step s → x ∉ s := by
        intro x hx hxs
        exact hx (heq ▸ List.mem_append_left news hxs)
      have hwstep : w ∈ step s := heq ▸ List.mem_append_right s hw
      have hstrict : (U.dedup.filter (fun x => x ∉ step s)).length <
          (U.dedup.filter (fun x => x ∉ s)).length := by
        apply length_filter_lt_of_strict (w := w)
        · intro x _ hx
          simpa using hmono x (by simpa using hx)
        · exact List.mem_dedup.mpr hwU
        · simpa using hws
        · simpa using hwstep
      omega

/-! ## Derivation relations -/

/-- `(A, rhs)` is one of the grammar's productions, as the iteration over
`productions.items()` sees them. -/
def ProdMem (g : Grammar) (A : String) (rhs : List String) : Prop :=
  ∃ prods, (A, prods) ∈ g.productions ∧ rhs ∈ prods

instance (g : Grammar) (A : String) (rhs : List String) :
    Decidable (ProdMem g A rhs) :=
  decidable_of_iff (∃ p ∈ g.productions, p.1 = A ∧ rhs ∈ p.2) (by
    constructor
    · rintro ⟨⟨B, prods⟩, hmem, rfl, hr⟩
      exact ⟨prods, hmem, hr⟩
    · rintro ⟨prods, hmem, hr⟩
      exact ⟨(A, prods), hmem, rfl, hr⟩)

/-- One context-free rewriting step: replace one occurrence of a left
symbol by one of its right-hand sides. -/
inductive GStep (g : Grammar) : List String → List String → Prop
  | step (u v : List String) {A : String} {rhs : List String} :
      ProdMem g A rhs → GStep g (u ++ A :: v) (u ++ rhs ++ v)

/-- Ordinary derivation: the reflexive-transitive closure of `GStep`. -/
def GDerives (g : Grammar) : List String → List String → Prop :=
  Relation.ReflTransGen (GStep g)

/-- Derivations built from exactly the rules the CYK fill consults: a unary
production of a terminal (`terminal_producers`) or a two-symbol production
(`binary_producers`).  For a CNF grammar with no ε-production and no start
symbol on a right-hand side this coincides with ordinary derivation of a
token string; the ε-productions that `is_in_cnf` still tolerates on the
start symbol are invisible to the fill, which is exactly claim C2's flaw. -/
inductive CykDerives (g : Grammar) : String → List String → Prop
  | terminal {A t : String} : ProdMem g A [t] → t ∈ g.terminals →
      CykDerives g A [t]
  | binary {A B C : String} {w₁ w₂ : List String} : ProdMem g A [B, C] →
      CykDerives g B w₁ → CykDerives g C w₂ → CykDerives g A (w₁ ++ w₂)

theorem CykDerives.ne_nil {g : Grammar} {A : String} {w : List String}
    (h : CykDerives g A w) : w ≠ [] := by
  induction h with
  | terminal _ _ => simp
  | binary _ _ _ ih₁ ih₂ =>
    intro hw
    rcases List.append_eq_nil.mp hw with ⟨h₁, _⟩
    exact ih₁ h₁

theorem CykDerives.length_one_inv {g : Grammar} {A : String} {w : List String}
    (h : CykDerives g A w) (hw : w.length = 1) :
    ∃ t, w = [t] ∧ ProdMem g A [t] ∧ t ∈ g.terminals := by
  cases h with
  | terminal hp ht => exact ⟨_, rfl, hp, ht⟩
  | binary hp h₁ h₂ =>
    exfalso
    rename_i B C w₁ w₂
    rw [List.length_append] at hw
    have h₁n := h₁.ne_nil
    have h₂n := h₂.ne_nil
    have hw₁ : w₁.length ≠ 0 := fun hz => h₁n (List.eq_nil_of_length_eq_zero hz)
    have hw₂ : w₂.length ≠ 0 := fun hz => h₂n (List.eq_nil_of_length_eq_zero hz)
    omega

theorem CykDerives.singleton_inv {g : Grammar} {A t : String}
    (h : CykDerives g A [t]) : ProdMem g A [t] ∧ t ∈ g.terminals := by
  obtain ⟨s, hs, hp, ht⟩ := h.length_one_inv rfl
  obtain rfl : t = s := by
    injection hs with h₁ _
  exact ⟨hp, ht⟩

/-- The token span `[i, j]` (inclusive) of a token list. -/
def span (toks : List String) (i j : Nat) : List String :=
  (toks.drop i).take (j + 1 - i)

theorem span_length {toks : List String} {i j : Nat} (hij : i ≤ j)
    (hj : j < toks.length) : (span toks i j).length = j + 1 - i := by
  unfold span
  rw [List.length_take, List.length_drop]
  omega

theorem span_self {toks : List String} {i : Nat} (hi : i < toks.length) :
    span toks i i = [toks.getD i ""] := by
  unfold span
  rw [List.drop_eq_getElem_cons hi]
  rw [show i + 1 - i = 1 by omega]
  rw [List.take_succ_cons, List.take_zero]
  rw [List.getD_eq_getElem?_getD, List.getElem?_eq_getElem hi]
  rfl

theorem span_concat {toks : List String} {i k j : Nat} (hik : i ≤ k) (hkj : k < j) :
    span toks i k ++ span toks (k + 1) j = span toks i j := by
  unfold span
  have hd : toks.drop (k + 1) = (toks.drop i).drop (k + 1 - i) := by
    rw [List.drop_drop]
    congr 1
    omega
  rw [hd]
  rw [← List.take_add]
  congr 1
  omega

theorem span_take {toks : List String} {i j m : Nat} (hm : 1 ≤ m)
    (hle : m ≤ j + 1 - i) : (span toks i j).take m = span toks i (i + m - 1) := by
  unfold span
  rw [List.take_take]
  congr 1
  omega

theorem span_drop {toks : List String} {i j m : Nat} :
    (span toks i j).drop m = span toks (i + m) j := by
  unfold span
  rw [List.drop_take, List.drop_drop]
  congr 1
  omega

theorem span_split {toks : List String} {i j : Nat} {w₁ w₂ : List String}
    (hij : i ≤ j) (hj : j < toks.length)
    (heq : w₁ ++ w₂ = span toks i j) (h₁ : w₁ ≠ []) (h₂ : w₂ ≠ []) :
    i + w₁.length - 1 < j ∧ i ≤ i + w₁.length - 1 ∧
      w₁ = span toks i (i + w₁.length - 1) ∧
      w₂ = span toks (i + w₁.length) j := by
  have hlen : w₁.length + w₂.length = j + 1 - i := by
    have := congrArg List.length heq
    rw [List.length_append, span_length hij hj] at this
    exact this
  have h₁p : 1 ≤ w₁.length := by
    rcases Nat.eq_zero_or_pos w₁.length with hz | hp
    · exact absurd (List.eq_nil_of_length_eq_zero hz) h₁
    · exact hp
  have h₂p : 1 ≤ w₂.length := by
    rcases Nat.eq_zero_or_pos w₂.length with hz | hp
    · exact absurd (List.eq_nil_of_length_eq_zero hz) h₂
    · exact hp
  refine ⟨by omega, by omega, ?_, ?_⟩
  · have htk : (span toks i j).take w₁.length = w₁ := by
      rw [← heq]
      exact List.take_left' rfl
    exact htk.symm.trans (span_take h₁p (by omega))
  · have hdp : (span toks i j).drop w₁.length = w₂ := by
      rw [← heq]
      exact List.drop_left' rfl
    exact hdp.symm.trans span_drop

/-! ## What the CYK cells contain -/

theorem mem_foldl_acc {α β : Type} {F : List α → β → List α} {G : β → α → Prop}
    (hF : ∀ acc x a, a ∈ F acc x ↔ a ∈ acc ∨ G x a) :
    ∀ (l : List β) (acc : List α) (a : α),
      a ∈ l.foldl F acc ↔ a ∈ acc ∨ ∃ x ∈ l, G x a := by
  intro l
  induction l with
  | nil => simp
  | cons x xs ih =>
    intro acc a
    rw [List.foldl_cons, ih, hF]
    simp only [List.mem_cons]
    constructor
    · rintro ((h | h) | ⟨y, hy, hG⟩)
      · exact Or.inl h
      · exact Or.inr ⟨x, Or.inl rfl, h⟩
      · exact Or.inr ⟨y, Or.inr hy, hG⟩
    · rintro (h | ⟨y, (rfl | hy), hG⟩)
      · exact Or.inl (Or.inl h)
      · exact Or.inl (Or.inr hG)
      · exact Or.inr ⟨y, hy, hG⟩

theorem mem_terminal_producers {g : Grammar} {t A : String} :
    A ∈ CYK.terminal_producers g t ↔ ProdMem g A [t] ∧ t ∈ g.terminals := by
  unfold CYK.terminal_producers
  rw [mem_foldl_acc (G := fun (p : String × List (List String)) a =>
    ∃ prod ∈ p.2, prod = [t] ∧ t ∈ g.terminals ∧ a = p.1)]
  · simp only [List.not_mem_nil, false_or]
    constructor
    · rintro ⟨p, hp, prod, hprod, rfl, ht, rfl⟩
      exact ⟨⟨p.2, by simpa using hp, hprod⟩, ht⟩
    · rintro ⟨⟨prods, hmem, hr⟩, ht⟩
      exact ⟨(A, prods), hmem, [t], hr, rfl, ht, rfl⟩
  · intro acc p a
    rw [mem_foldl_acc (G := fun (prod : List String) a =>
      prod = [t] ∧ t ∈ g.terminals ∧ a = p.1)]
    intro acc₂ prod a
    rcases prod with _ | ⟨s, _ | ⟨s₂, rest⟩⟩
    · simp
    · show a ∈ (if s ∈ g.terminals ∧ s = t then setAdd acc₂ p.1 else acc₂) ↔ _
      by_cases hc : s ∈ g.terminals ∧ s = t
      · rw [if_pos hc, mem_setAdd]
        obtain ⟨hterm, rfl⟩ := hc
        constructor
        · rintro (h | rfl)
          · exact Or.inl h
          · exact Or.inr ⟨rfl, hterm, rfl⟩
        · rintro (h | ⟨_, _, rfl⟩)
          · exact Or.inl h
          · exact Or.inr rfl
      · rw [if_neg hc]
        constructor
        · exact Or.inl
        · rintro (h | ⟨heq, ht₂, rfl⟩)
          · exact h
          · obtain rfl : s = t := by injection heq
            exact absurd ⟨ht₂, rfl⟩ hc
    · show a ∈ acc₂ ↔ _
      constructor
      · exact Or.inl
      · rintro (h | ⟨heq, _, _⟩)
        · exact h
        · exact absurd heq (by simp)

theorem mem_binary_producers {g : Grammar} {B C A : String} :
    A ∈ CYK.binary_producers g (B, C) ↔ ProdMem g A [B, C] := by
  unfold CYK.binary_producers
  rw [mem_foldl_acc (G := fun (p : String × List (List String)) a =>
    ∃ prod ∈ p.2, prod = [B, C] ∧ a = p.1)]
  · simp only [List.not_mem_nil, false_or]
    constructor
    · rintro ⟨p, hp, prod, hprod, rfl, rfl⟩
      exact ⟨p.2, by simpa using hp, hprod⟩
    · rintro ⟨prods, hmem, hr⟩
      exact ⟨(A, prods), hmem, [B, C], hr, rfl, rfl⟩
  · intro acc p a
    rw [mem_foldl_acc (G := fun (prod : List String) a =>
      prod = [B, C] ∧ a = p.1)]
    intro acc₂ prod a
    rcases prod with _ | ⟨s₁, _ | ⟨s₂, _ | ⟨s₃, rest⟩⟩⟩
    · simp
    · show a ∈ acc₂ ↔ _
      constructor
      · exact Or.inl
      · rintro (h | ⟨heq, _⟩)
        · exact h
        · exact absurd heq (by simp)
    · show a ∈ (if (s₁, s₂) = (B, C) then setAdd acc₂ p.1 else acc₂) ↔ _
      by_cases hc : (s₁, s₂) = (B, C)
      · rw [if_pos hc, mem_setAdd]
        obtain ⟨rfl, rfl⟩ : s₁ = B ∧ s₂ = C := Prod.mk.injEq .. ▸ hc
        constructor
        · rintro (h | rfl)
          · exact Or.inl h
          · exact Or.inr ⟨rfl, rfl⟩
        · rintro (h | ⟨_, rfl⟩)
          · exact Or.inl h
          · exact Or.inr rfl
      · rw [if_neg hc]
        constructor
        · exact Or.inl
        · rintro (h | ⟨heq, rfl⟩)
          · exact h
          · refine absurd ?_ hc
            obtain ⟨h₁, h₂⟩ : s₁ = B ∧ s₂ :: [] = C :: [] := by
              injection heq with h₁ h₂
              exact ⟨h₁, h₂⟩
            obtain rfl := h₁
            obtain rfl : s₂ = C := by injection h₂
            rfl
    · show a ∈ acc₂ ↔ _
      constructor
      · exact Or.inl
      · rintro (h | ⟨heq, _⟩)
        · exact h
        · exact absurd heq (by simp)

theorem cellFuel_congr (g : Grammar) (toks : List String) :
    ∀ (f₁ f₂ d : Nat), d < f₁ → d < f₂ → ∀ i,
      CYK.cellFuel g toks f₁ d i = CYK.cellFuel g toks f₂ d i := by
  intro f₁
  induction f₁ with
  | zero => intro f₂ d h₁ _ _; omega
  | succ f₁ ih =>
    intro f₂ d h₁ h₂ i
    match f₂, d with
    | f₂ + 1, 0 => rfl
    | f₂ + 1, d + 1 =>
      show (List.range (d + 1)).foldl _ [] = (List.range (d + 1)).foldl _ []
      apply List.foldl_ext
      intro acc k hk
      have hk₂ : k < d + 1 := List.mem_range.mp hk
      rw [ih f₂ k (by omega) (by omega) i,
        ih f₂ (d - k) (by omega) (by omega) (i + k + 1)]

theorem cell_zero (g : Grammar) (toks : List String) (i : Nat) :
    CYK.cell g toks 0 i = CYK.terminal_producers g (toks.getD i "") := rfl

theorem cell_succ (g : Grammar) (toks : List String) (d i : Nat) :
    CYK.cell g toks (d + 1) i =
      (List.range (d + 1)).foldl
        (fun acc k =>
          (CYK.cell g toks k i).foldl
            (fun acc left_var =>
              (CYK.cell g toks (d - k) (i + k + 1)).foldl
                (fun acc right_var =>
                  (CYK.binary_producers g (left_var, right_var)).foldl
                    (fun acc producer => setAdd acc producer) acc)
                acc)
            acc)
        [] := by
  show (List.range (d + 1)).foldl _ [] = _
  apply List.foldl_ext
  intro acc k hk
  have hk₂ : k < d + 1 := List.mem_range.mp hk
  show (CYK.cellFuel g toks (d + 1) k i).foldl _ _ = _
  rw [cellFuel_congr g toks (d + 1) (k + 1) k (by omega) (Nat.lt_succ_self k) i,
    cellFuel_congr g toks (d + 1) (d - k + 1) (d - k) (by omega) (Nat.lt_succ_self (d - k))
      (i + k + 1)]
  rfl

theorem mem_cell_succ {g : Grammar} {toks : List String} {d i : Nat} {A : String} :
    A ∈ CYK.cell g toks (d + 1) i ↔
      ∃ k ≤ d, ∃ L ∈ CYK.cell g toks k i,
        ∃ R ∈ CYK.cell g toks (d - k) (i + k + 1),
          A ∈ CYK.binary_producers g (L, R) := by
  rw [cell_succ]
  rw [mem_foldl_acc (G := fun (k : Nat) a =>
    ∃ L ∈ CYK.cell g toks k i,
      ∃ R ∈ CYK.cell g toks (d - k) (i + k + 1),
        a ∈ CYK.binary_producers g (L, R))]
  · simp only [List.not_mem_nil, false_or]
    constructor
    · rintro ⟨k, hk, hrest⟩
      exact ⟨k, Nat.le_of_lt_succ (List.mem_range.mp hk), hrest⟩
    · rintro ⟨k, hk, hrest⟩
      exact ⟨k, List.mem_range.mpr (Nat.lt_succ_of_le hk), hrest⟩
  · intro acc k a
    rw [mem_foldl_acc (G := fun (L : String) a =>
      ∃ R ∈ CYK.cell g toks (d - k) (i + k + 1),
        a ∈ CYK.binary_producers g (L, R))]
    intro acc₂ L a
    rw [mem_foldl_acc (G := fun (R : String) a =>
      a ∈ CYK.binary_producers g (L, R))]
    intro acc₃ R a
    exact mem_setAddAll

/-- Soundness and completeness of the CYK fill with respect to the
terminal/binary derivation relation: `table[i][j]` holds exactly the
symbols deriving the token span `[i, j]` by those rules.  No grammar
hypothesis is needed — the fill and `CykDerives` consult the same rules. -/
theorem mem_cell_iff_cykDerives (g : Grammar) (toks : List String) :
    ∀ (d i : Nat), i + d < toks.length →
      ∀ A, A ∈ CYK.cell g toks d i ↔ CykDerives g A (span toks i (i + d)) := by
  intro d
  induction d using Nat.strong_induction_on with
  | _ d ih =>
    match d with
    | 0 =>
      intro i hi A
      rw [cell_zero, mem_terminal_producers]
      rw [show i + 0 = i by omega, span_self (by omega)]
      constructor
      · rintro ⟨hp, ht⟩
        exact CykDerives.terminal hp ht
      · intro h
        exact h.singleton_inv
    | d + 1 =>
      intro i hi A
      rw [mem_cell_succ]
      constructor
      · rintro ⟨k, hk, L, hL, R, hR, hprod⟩
        have hbp : ProdMem g A [L, R] := mem_binary_producers.mp hprod
        have h₁ := (ih k (by omega) i (by omega) L).mp hL
        have h₂ := (ih (d - k) (by omega) (i + k + 1) (by omega) R).mp hR
        have hc := CykDerives.binary hbp h₁ h₂
        have hsp : span toks i (i + k) ++ span toks (i + k + 1) (i + k + 1 + (d - k)) =
            span toks i (i + (d + 1)) := by
          rw [show i + k + 1 + (d - k) = i + (d + 1) by omega]
          exact span_concat (by omega) (by omega)
        rw [hsp] at hc
        exact hc
      · intro h
        generalize hw : span toks i (i + (d + 1)) = w at h
        cases h with
        | terminal hp ht =>
          exfalso
          have := congrArg List.length hw
          rw [span_length (by omega) (by omega)] at this
          simp at this
          omega
        | binary hp h₁ h₂ =>
          rename_i B C w₁ w₂
          have hsplit := span_split (by omega : i ≤ i + (d + 1)) (by omega)
            hw.symm h₁.ne_nil h₂.ne_nil
          obtain ⟨hkj, hik, he₁, he₂⟩ := hsplit
          have h₁p : 1 ≤ w₁.length := by
            rcases Nat.eq_zero_or_pos w₁.length with hz | hp₂
            · exact absurd (List.eq_nil_of_length_eq_zero hz) h₁.ne_nil
            · exact hp₂
          refine ⟨w₁.length - 1, by omega, B, ?_, C, ?_, mem_binary_producers.mpr hp⟩
          · apply (ih (w₁.length - 1) (by omega) i (by omega) B).mpr
            rw [show i + (w₁.length - 1) = i + w₁.length - 1 by omega, ← he₁]
            exact h₁
          · apply (ih (d - (w₁.length - 1)) (by omega) (i + (w₁.length - 1) + 1)
              (by omega) C).mpr
            rw [show i + (w₁.length - 1) + 1 = i + w₁.length by omega]
            rw [show i + w₁.length + (d - (w₁.length - 1)) = i + (d + 1) by omega]
            rw [← he₂]
            exact h₂

/-! ## Membership lemmas for the converter's collectors -/

theorem foldl_extends {α β : Type} {f : List α → β → List α}
    (hf : ∀ acc x, ∃ extra, f acc x = acc ++ extra) :
    ∀ (l : List β) (acc : List α), ∃ news, l.foldl f acc = acc ++ news := by
  intro l
  induction l with
  | nil => intro acc; exact ⟨[], (List.append_nil acc).symm⟩
  | cons x xs ih =>
    intro acc
    obtain ⟨extra, hx⟩ := hf acc x
    obtain ⟨news, hn⟩ := ih (f acc x)
    exact ⟨extra ++ news, by rw [List.foldl_cons, hn, hx, List.append_assoc]⟩

theorem nullablePass_extends (ps : List (String × List (List String)))
    (s : List String) : ∃ news, CNFConverter.nullablePass ps s = s ++ news := by
  refine foldl_extends ?_ ps s
  intro acc p
  by_cases h₁ : p.1 ∈ acc
  · exact ⟨[], by rw [if_pos h₁]; exact (List.append_nil acc).symm⟩
  · by_cases h₂ : p.2.any (fun prod => prod ≠ [] && prod.all (fun s => s ∈ acc)) = true
    · exact ⟨[p.1], by rw [if_neg h₁, if_pos h₂]⟩
    · exact ⟨[], by rw [if_neg h₁, if_neg h₂]; exact (List.append_nil acc).symm⟩

theorem mem_nullableDirect {g : Grammar} {a : String} :
    a ∈ CNFConverter.nullableDirect g ↔
      ∃ p ∈ g.productions, ∃ prod ∈ p.2, (prod = [] ∨ prod = ["ε"]) ∧ a = p.1 := by
  unfold CNFConverter.nullableDirect
  rw [mem_foldl_acc (G := fun (p : String × List (List String)) a =>
    ∃ prod ∈ p.2, (prod = [] ∨ prod = ["ε"]) ∧ a = p.1)]
  · simp only [List.not_mem_nil, false_or]
  · intro acc p a
    rw [mem_foldl_acc (G := fun (prod : List String) a =>
      (prod = [] ∨ prod = ["ε"]) ∧ a = p.1)]
    intro acc₂ prod a
    rcases prod with _ | ⟨s, _ | ⟨s₂, rest⟩⟩
    · rw [mem_setAdd]
      constructor
      · rintro (h | rfl)
        · exact Or.inl h
        · exact Or.inr ⟨Or.inl rfl, rfl⟩
      · rintro (h | ⟨_, rfl⟩)
        · exact Or.inl h
        · exact Or.inr rfl
    · show a ∈ (if s = "ε" then setAdd acc₂ p.1 else acc₂) ↔ _
      by_cases hc : s = "ε"
      · subst hc
        rw [if_pos rfl, mem_setAdd]
        constructor
        · rintro (h | rfl)
          · exact Or.inl h
          · exact Or.inr ⟨Or.inr rfl, rfl⟩
        · rintro (h | ⟨_, rfl⟩)
          · exact Or.inl h
          · exact Or.inr rfl
      · rw [if_neg hc]
        constructor
        · exact Or.inl
        · rintro (h | ⟨heq, rfl⟩)
          · exact h
          · rcases heq with heq | heq
            · exact absurd heq (by simp)
            · obtain rfl : s = "ε" := by injection heq
              exact absurd rfl hc
    · show a ∈ acc₂ ↔ _
      constructor
      · exact Or.inl
      · rintro (h | ⟨(heq | heq), rfl⟩)
        · exact h
        · exact absurd heq (by simp)
        · exact absurd heq (by simp)

theorem mem_find_nullable_of_direct {g : Grammar} {a : String}
    (h : a ∈ CNFConverter.nullableDirect g) :
    a ∈ CNFConverter.find_nullable_symbols g :=
  mem_iterFix_of_mem (fun s => nullablePass_extends g.productions s) _ _ a h

theorem mem_add_production_terminals {g : Grammar} {left s : String}
    {right : List String} :
    s ∈ (Grammar.add_production g left right).terminals ↔
      s ∈ g.terminals ∨ (s ∈ right ∧ Grammar.classifiedAsTerminal s = true) := by
  show s ∈ right.foldl _ g.terminals ↔ _
  rw [mem_foldl_acc (G := fun (x : String) a =>
    a = x ∧ Grammar.classifiedAsTerminal x = true)]
  · constructor
    · rintro (h | ⟨x, hx, rfl, hc⟩)
      · exact Or.inl h
      · exact Or.inr ⟨hx, hc⟩
    · rintro (h | ⟨hx, hc⟩)
      · exact Or.inl h
      · exact Or.inr ⟨s, hx, rfl, hc⟩
  · intro acc x a
    by_cases hc : Grammar.classifiedAsTerminal x = true
    · rw [if_pos hc, mem_setAdd]
      constructor
      · rintro (h | rfl)
        · exact Or.inl h
        · exact Or.inr ⟨rfl, hc⟩
      · rintro (h | ⟨rfl, _⟩)
        · exact Or.inl h
        · exact Or.inr rfl
    · rw [if_neg hc]
      constructor
      · exact Or.inl
      · rintro (h | ⟨rfl, hcc⟩)
        · exact h
        · exact absurd hcc hc

/-! ## The converter never writes its retained original -/

theorem generate_new_variable_frame (base : String) (c : CNFConverter) :
    ((CNFConverter.generate_new_variable base c).2).original_grammar
        = c.original_grammar ∧
    ((CNFConverter.generate_new_variable base c).2).grammar = c.grammar :=
  ⟨rfl, rfl⟩

theorem eliminate_epsilon_original (c : CNFConverter) :
    (CNFConverter.eliminate_epsilon_productions c).original_grammar
      = c.original_grammar := by
  unfold CNFConverter.eliminate_epsilon_productions
  split
  · split
    · rfl
    · rfl
  · rfl

theorem eliminate_unit_original (c : CNFConverter) :
    (CNFConverter.eliminate_unit_productions c).original_grammar
      = c.original_grammar := rfl

theorem eliminate_useless_original (c : CNFConverter) :
    (CNFConverter.eliminate_useless_symbols c).original_grammar
      = c.original_grammar := rfl

theorem convert_to_binary_original (c : CNFConverter) :
    (CNFConverter.convert_to_binary_form c).original_grammar
      = c.original_grammar := rfl

theorem to_cnf_original (c : CNFConverter) :
    ((CNFConverter.to_cnf c).2.2).original_grammar = c.original_grammar := by
  unfold CNFConverter.to_cnf
  have h₄ := convert_to_binary_original (CNFConverter.eliminate_useless_symbols
    (CNFConverter.eliminate_unit_productions (CNFConverter.eliminate_epsilon_productions c)))
  have h₃ := eliminate_useless_original
    (CNFConverter.eliminate_unit_productions (CNFConverter.eliminate_epsilon_productions c))
  have h₂ := eliminate_unit_original (CNFConverter.eliminate_epsilon_productions c)
  have h₁ := eliminate_epsilon_original c
  split
  · show (CNFConverter.convert_to_binary_form _).original_grammar = _
    rw [h₄, h₃, h₂, h₁]
  · show (CNFConverter.convert_to_binary_form _).original_grammar = _
    rw [h₄, h₃, h₂, h₁]

/-! ## Concrete grammars used by the claims -/

/-- `S → a S | a`, built through the grammar API: a CNF-legal-looking input
whose binary right-hand side keeps the terminal `a`. -/
def mixedRhsGrammar : Grammar :=
  ((({} : Grammar).add_production "S" ["a", "S"]).add_production "S" ["a"]).set_start_symbol "S"

/-- Scenario 2 of the spec: `S → A B`, `A → a | ε`, `B → b | ε`, start `S`. -/
def scenarioTwoGrammar : Grammar :=
  ((((({} : Grammar).add_production "S" ["A", "B"]).add_production "A" ["a"]).add_production
      "A" ["ε"]).add_production "B" ["b"] |>.add_production "B" ["ε"]).set_start_symbol "S"

/-- Scenario 3 of the spec: the unit chain `S → A`, `A → B`, `B → c`. -/
def unitChainGrammar : Grammar :=
  (((({} : Grammar).add_production "S" ["A"]).add_production "A" ["B"]).add_production
      "B" ["c"]).set_start_symbol "S"

/-- A grammar already in CNF with an unreachable nonterminal `A`:
`S → a`, `A → b`, start `S`. -/
def cnfUnreachableGrammar : Grammar :=
  ((({} : Grammar).add_production "S" ["a"]).add_production "A" ["b"]).set_start_symbol "S"

/-- A grammar passing `is_in_cnf` whose start symbol is nullable and occurs
on a right-hand side: `S → ε | A S`, `A → a`, start `S`. -/
def epsilonCnfGrammar : Grammar :=
  { productions := [("S", [[], ["A", "S"]]), ("A", [["a"]])]
    terminals := ["a"]
    non_terminals := ["S", "A"]
    start_symbol := some "S" }

/-- A one-rule CNF grammar `S → a`. -/
def tinyCnfGrammar : Grammar :=
  { productions := [("S", [["a"]])]
    terminals := ["a"]
    non_terminals := ["S"]
    start_symbol := some "S" }

/-- A nullable-start grammar for the Stage A witness: `S → ε | a`. -/
def nullableStartGrammar : Grammar :=
  ((({} : Grammar).add_production "S" ["ε"]).add_production "S" ["a"]).set_start_symbol "S"

/-! ## Claim C1 -/

/-- Claim C1, counterexample: for the grammar `S → a S | a` (start `S`),
`to_cnf` runs all four stages yet the result fails `is_in_cnf` — the binary
right-hand side `[a, S]` keeps the terminal `a`, since the converter has no
terminal-replacement step — and the warning flag (not a hard failure) is
raised; this is not the documented edge case, for the returned start symbol
still has its productions. -/
theorem to_cnf_fails_cnf_beyond_documented_edge :
    (CNFConverter.to_cnf (CNFConverter.init mixedRhsGrammar)).1.is_in_cnf = false ∧
    (CNFConverter.to_cnf (CNFConverter.init mixedRhsGrammar)).2.1 = false ∧
    (CNFConverter.to_cnf (CNFConverter.init mixedRhsGrammar)).1.start_symbol = some "S" ∧
    dictGetD (CNFConverter.to_cnf (CNFConverter.init mixedRhsGrammar)).1.productions "S"
      = [["a", "S"], ["a"]] := by
  decide

/-- Claim C1, amended: `to_cnf` performs Stage A, then B, then C, then D,
and returns the resulting grammar whether or not the final `is_in_cnf`
check holds; the check's outcome is surfaced only as the success/warning
diagnostic.  (As the counterexample shows, the check can fail on inputs
other than the documented start-symbol edge case, e.g. whenever a binary
right-hand side retains a terminal.) -/
theorem to_cnf_stages_and_diagnostic (c : CNFConverter) :
    (CNFConverter.to_cnf c).1 =
      (CNFConverter.convert_to_binary_form (CNFConverter.eliminate_useless_symbols
        (CNFConverter.eliminate_unit_productions
          (CNFConverter.eliminate_epsilon_productions c)))).grammar ∧
    ((CNFConverter.to_cnf c).2.1 = true ↔ (CNFConverter.to_cnf c).1.is_in_cnf = true) := by
  unfold CNFConverter.to_cnf
  split
  · next h => exact ⟨rfl, by simpa using h⟩
  · next h =>
    refine ⟨rfl, ?_⟩
    simp only [Bool.false_eq_true, false_iff]
    simpa using h

/-! ## Claim C2 -/

/-- Claim C2, counterexample: `epsilonCnfGrammar` (`S → ε | A S`, `A → a`)
passes `is_in_cnf`, and `S` derives the token span `["a"]` in the ordinary
sense (`S ⇒ A S ⇒ a S ⇒ a`), yet the CYK fill never puts `S` into
`table[0][0]` — the fill cannot use the ε-production — so the parse
rejects a derivable sentence: the table does not hold exactly the deriving
NonTerminals. -/
theorem cyk_table_misses_epsilon_derivation :
    epsilonCnfGrammar.is_in_cnf = true ∧
    GDerives epsilonCnfGrammar ["S"] ["a"] ∧
    "S" ∉ CYK.cell epsilonCnfGrammar ["a"] 0 0 ∧
    CYK.parse epsilonCnfGrammar ["a"] = false := by
  refine ⟨by decide, ?_, by decide, by decide⟩
  apply Relation.ReflTransGen.head
    (@GStep.step epsilonCnfGrammar [] [] "S" ["A", "S"] (by decide))
  apply Relation.ReflTransGen.head
    (@GStep.step epsilonCnfGrammar [] ["S"] "A" ["a"] (by decide))
  apply Relation.ReflTransGen.head
    (@GStep.step epsilonCnfGrammar ["a"] [] "S" [] (by decide))
  exact Relation.ReflTransGen.refl

/-- Claim C2, amended: for a grammar in CNF and tokens with
`0 ≤ i ≤ j < n`, `table[i][j]` holds exactly the NonTerminals that derive
the token span `[i, j]` using the terminal and binary productions (the
derivations the fill consults; ε-productions, which `is_in_cnf` still
tolerates on the start symbol, are invisible to the fill — see the
counterexample), and a non-empty sentence is accepted iff the start symbol
is a member of `table[0][n-1]`. -/
theorem cyk_table_characterization (g : Grammar) (toks : List String) (i j : Nat)
    (hcnf : g.is_in_cnf = true) (hij : i ≤ j) (hj : j < toks.length) :
    (∀ A, A ∈ CYK.cell g toks (j - i) i ↔ CykDerives g A (span toks i j)) ∧
    (toks ≠ [] →
      (CYK.parse g toks = true ↔
        ∃ s, g.start_symbol = some s ∧
          s ∈ CYK.cell g toks (toks.length - 1) 0)) := by
  constructor
  · intro A
    have h := mem_cell_iff_cykDerives g toks (j - i) i (by omega) A
    rw [show i + (j - i) = j by omega] at h
    exact h
  · intro hne
    unfold CYK.parse
    rw [if_neg hne]
    cases hs : g.start_symbol with
    | none => simp [Grammar.is_in_cnf, hs] at hcnf
    | some s =>
      simp only [decide_eq_true_eq]
      constructor
      · intro hmem
        exact ⟨s, rfl, hmem⟩
      · rintro ⟨s₂, hs₂, hmem⟩
        obtain rfl : s = s₂ := by injection hs₂
        exact hmem

/-- Witness for the amended C2 at a concrete CNF grammar and sentence. -/
theorem cyk_table_characterization_witness :
    (∀ A, A ∈ CYK.cell tinyCnfGrammar ["a"] 0 0 ↔
      CykDerives tinyCnfGrammar A (span ["a"] 0 0)) ∧
    (["a"] ≠ ([] : List String) →
      (CYK.parse tinyCnfGrammar ["a"] = true ↔
        ∃ s, tinyCnfGrammar.start_symbol = some s ∧
          s ∈ CYK.cell tinyCnfGrammar ["a"] 0 0)) :=
  cyk_table_characterization tinyCnfGrammar ["a"] 0 0 (by decide) (Nat.le_refl 0)
    (by decide)

/-! ## Claim C6 -/

/-- Claim C6: after converting scenario 2 (`S → A B`, `A → a | ε`,
`B → b | ε`), the CYK parser accepts `["a","b"]`, `["a"]` and `["b"]`;
the empty sequence is rejected by the fail-fast path (so it is never
accepted through any NonTerminal), and indeed the converted grammar — whose
start was renamed to `S0` — is in CNF and retains no ε-production at all,
interior or otherwise. -/
theorem scenario_two_acceptance :
    CYK.parse (CNFConverter.to_cnf (CNFConverter.init scenarioTwoGrammar)).1 ["a", "b"]
      = true ∧
    CYK.parse (CNFConverter.to_cnf (CNFConverter.init scenarioTwoGrammar)).1 ["a"]
      = true ∧
    CYK.parse (CNFConverter.to_cnf (CNFConverter.init scenarioTwoGrammar)).1 ["b"]
      = true ∧
    CYK.parse (CNFConverter.to_cnf (CNFConverter.init scenarioTwoGrammar)).1 [] = false ∧
    (CNFConverter.to_cnf (CNFConverter.init scenarioTwoGrammar)).1.start_symbol
      = some "S0" ∧
    (CNFConverter.to_cnf (CNFConverter.init scenarioTwoGrammar)).1.is_in_cnf = true ∧
    (CNFConverter.to_cnf (CNFConverter.init scenarioTwoGrammar)).1.productions.all
      (fun p => p.2.all (fun prod => prod ≠ [])) = true := by
  decide

/-! ## Claim C7 -/

/-- Claim C7, counterexample: `add_production` on a right-hand side whose
symbol `A` is classified neither as Terminal nor as NonTerminal succeeds —
the production is recorded, `A` is left entirely unclassified, and no
`UnclassifiedSymbolError` (which does not exist in the code) is raised. -/
theorem add_production_unclassified_no_error :
    ("A" ∉ ({} : Grammar).terminals ∧ "A" ∉ ({} : Grammar).non_terminals) ∧
    (({} : Grammar).add_production "S" ["A"]).productions = [("S", [["A"]])] ∧
    "A" ∉ (({} : Grammar).add_production "S" ["A"]).terminals ∧
    "A" ∉ (({} : Grammar).add_production "S" ["A"]).non_terminals := by
  decide

/-- Claim C7, amended: `add_production(left, right)` appends `right` to
`left`'s production list and registers `left` as a NonTerminal; right-hand
symbols are classified by spelling — a symbol that is non-empty with a
non-uppercase first character, or is `epsilon`/`ε`/the empty string, is
added to the terminal set, and any other (uppercase-first) symbol is left
unclassified with no error raised (the call is total). -/
theorem add_production_behavior (g : Grammar) (left : String) (right : List String) :
    dictGetD (Grammar.add_production g left right).productions left
        = dictGetD g.productions left ++ [right] ∧
    left ∈ (Grammar.add_production g left right).non_terminals ∧
    (Grammar.add_production g left right).start_symbol = g.start_symbol ∧
    (∀ s, s ∈ (Grammar.add_production g left right).terminals ↔
      s ∈ g.terminals ∨ (s ∈ right ∧ Grammar.classifiedAsTerminal s = true)) ∧
    (∀ s, s ∈ (Grammar.add_production g left right).non_terminals ↔
      s ∈ g.non_terminals ∨ s = left) := by
  refine ⟨dictGetD_dictAppend_self g.productions left right, ?_, rfl, ?_, ?_⟩
  · exact mem_setAdd.mpr (Or.inr rfl)
  · intro s
    exact mem_add_production_terminals
  · intro s
    exact mem_setAdd

/-! ## Claim C8 -/

/-- Claim C8: the converter transforms copies only.  `Grammar.copy` is a
faithful deep copy (`copy g = g` as values), `init` stores that copy, and
every stage rewrites only the working `grammar` field, so after the whole
`to_cnf` pipeline the converter's retained original — the caller's
grammar — is unchanged.  (Object-identity aliasing is outside a value-level
embedding; what is verified is that no stage ever writes the original.) -/
theorem converter_preserves_input (g : Grammar) :
    Grammar.copy g = g ∧
    ((CNFConverter.to_cnf (CNFConverter.init g)).2.2).original_grammar = g := by
  refine ⟨Grammar.copy_eq g, ?_⟩
  rw [to_cnf_original (CNFConverter.init g)]
  exact Grammar.copy_eq g

/-! ## Claim C9 -/

/-- Claim C9: any right-hand symbol that is `ε`, `epsilon` or the empty
string is put into the terminal set by `add_production`; consequently a
length-1 production `[ε]` passes `is_in_cnf`'s length-1 check as a
terminal production while, at the same time, the converter's nullable
computation counts its left symbol as nullable. -/
theorem epsilon_symbol_dual_status (g : Grammar) (left v startSym : String)
    (right : List String) :
    (∀ s ∈ right, s ∈ (["ε", "epsilon", ""] : List String) →
      s ∈ (Grammar.add_production g left right).terminals) ∧
    "ε" ∈ (Grammar.add_production g v ["ε"]).terminals ∧
    Grammar.cnfProdOk (Grammar.add_production g v ["ε"]) startSym v ["ε"] = true ∧
    v ∈ CNFConverter.find_nullable_symbols (Grammar.add_production g v ["ε"]) := by
  have hterm : ∀ (g₂ : Grammar) (l : String) (rs : List String) (s : String),
      s ∈ rs → s ∈ (["ε", "epsilon", ""] : List String) →
      s ∈ (Grammar.add_production g₂ l rs).terminals := by
    intro g₂ l rs s hs hspec
    apply mem_add_production_terminals.mpr
    refine Or.inr ⟨hs, ?_⟩
    fin_cases hspec <;> decide
  refine ⟨fun s hs hspec => hterm g left right s hs hspec,
    hterm g v ["ε"] "ε" (by decide) (by decide), ?_, ?_⟩
  · show decide ("ε" ∈ (Grammar.add_production g v ["ε"]).terminals) = true
    rw [decide_eq_true_eq]
    exact hterm g v ["ε"] "ε" (by decide) (by decide)
  · apply mem_find_nullable_of_direct
    apply mem_nullableDirect.mpr
    have hm : ["ε"] ∈ dictGetD (Grammar.add_production g v ["ε"]).productions v := by
      show ["ε"] ∈ dictGetD (dictAppend g.productions v ["ε"]) v
      rw [dictGetD_dictAppend_self]
      exact List.mem_append_right _ (by decide)
    obtain ⟨rs, hentry, hin⟩ := exists_entry_of_mem_dictGetD hm
    exact ⟨(v, rs), hentry, ["ε"], hin, Or.inr rfl, rfl⟩

/-! ## Claim C10 -/

/-- The Grammar model's mutating operations, for quantifying over "every
Grammar operation". -/
inductive GrammarOp
  | addProd (left : String) (right : List String)
  | setStart (symbol : String)
  | removeProd (left : String) (right : List String)

def applyOp (g : Grammar) : GrammarOp → Grammar
  | .addProd left right => g.add_production left right
  | .setStart symbol => g.set_start_symbol symbol
  | .removeProd left right => g.remove_production left right

/-- The start symbol, once set, is registered among the nonterminals. -/
def startRegistered (g : Grammar) : Prop :=
  ∀ s, g.start_symbol = some s → s ∈ g.non_terminals

theorem dictHasKey_of_dictGetD_ne {ps : List (String × List (List String))}
    {k : String} (h : dictGetD ps k ≠ []) : dictHasKey ps k = true := by
  induction ps with
  | nil => exact absurd rfl h
  | cons p rest ih =>
    obtain ⟨v, rs⟩ := p
    by_cases hv : v = k
    · simp [dictHasKey, hv]
    · simp only [dictGetD, if_neg hv] at h
      simp only [dictHasKey, if_neg hv]
      exact ih h

/-- Claim C10: removing a left symbol's last remaining production deletes
its key from the production map and removes it from the nonterminal set
exactly when it is not the start symbol; and the start symbol stays a
member of the nonterminal set across every Grammar operation run after
`set_start_symbol` (which establishes the invariant). -/
theorem remove_production_last_and_start_invariant
    (g : Grammar) (left : String) (right : List String)
    (hnd : (g.productions.map Prod.fst).Nodup)
    (hlast : dictGetD g.productions left = [right])
    (hmem : left ∈ g.non_terminals) :
    (dictHasKey (g.remove_production left right).productions left = false ∧
      (left ∉ (g.remove_production left right).non_terminals ↔
        g.start_symbol ≠ some left)) ∧
    (∀ (g₀ : Grammar) (op : GrammarOp),
      startRegistered g₀ → startRegistered (applyOp g₀ op)) ∧
    (∀ (g₀ : Grammar) (symbol : String),
      startRegistered (g₀.set_start_symbol symbol)) := by
  refine ⟨?_, ?_, ?_⟩
  · have hkey : dictHasKey g.productions left = true :=
      dictHasKey_of_dictGetD_ne (by rw [hlast]; exact List.cons_ne_nil _ _)
    have hin : right ∈ dictGetD g.productions left := by
      rw [hlast]; exact List.mem_cons_self _ _
    have herase : (dictGetD g.productions left).erase right = [] := by
      rw [hlast]; exact List.erase_cons_head right []
    unfold Grammar.remove_production
    rw [if_pos ⟨hkey, hin⟩, if_pos herase]
    constructor
    · exact dictHasKey_dictDelete_of_nodup hnd
    · by_cases hss : g.start_symbol = some left
      · rw [if_neg (by simpa using hss)]
        constructor
        · intro hno
          exact absurd hmem hno
        · intro hne
          exact absurd hss hne
      · rw [if_pos (by simpa using hss)]
        constructor
        · intro _
          exact hss
        · intro _ hcontra
          have := List.mem_filter.mp hcontra
          simp at this
  · intro g₀ op h
    cases op with
    | addProd l r =>
      intro s hs
      exact mem_setAdd.mpr (Or.inl (h s hs))
    | setStart symbol =>
      intro s hs
      obtain rfl : symbol = s := by
        have : some symbol = some s := hs
        injection this
      exact mem_setAdd.mpr (Or.inr rfl)
    | removeProd l r =>
      show startRegistered (Grammar.remove_production g₀ l r)
      intro s hs
      unfold Grammar.remove_production at hs ⊢
      by_cases hcond : dictHasKey g₀.productions l ∧ r ∈ dictGetD g₀.productions l
      · rw [if_pos hcond] at hs ⊢
        by_cases herase : (dictGetD g₀.productions l).erase r = []
        · rw [if_pos herase] at hs ⊢
          by_cases hss : g₀.start_symbol ≠ some l
          · rw [if_pos hss] at hs ⊢
            have hs₀ : g₀.start_symbol = some s := hs
            have hsl : s ≠ l := by
              intro hcontra
              exact hss (hcontra ▸ hs₀)
            exact List.mem_filter.mpr ⟨h s hs₀, by simpa using hsl⟩
          · rw [if_neg hss] at hs ⊢
            exact h s hs
        · rw [if_neg herase] at hs ⊢
          exact h s hs
      · rw [if_neg hcond] at hs ⊢
        exact h s hs
  · intro g₀ symbol s hs
    obtain rfl : symbol = s := by
      have : some symbol = some s := hs
      injection this
    exact mem_setAdd.mpr (Or.inr rfl)

/-- Witness for C10 at a concrete grammar (`A → a`, `B → b`, start `B`,
removing the last production of the non-start `A`). -/
theorem remove_production_last_and_start_invariant_witness :
    (dictHasKey ((((({} : Grammar).add_production "A" ["a"]).add_production "B"
        ["b"]).set_start_symbol "B").remove_production "A" ["a"]).productions "A"
        = false ∧
      ("A" ∉ ((((({} : Grammar).add_production "A" ["a"]).add_production "B"
          ["b"]).set_start_symbol "B").remove_production "A" ["a"]).non_terminals ↔
        (((({} : Grammar).add_production "A" ["a"]).add_production "B"
          ["b"]).set_start_symbol "B").start_symbol ≠ some "A")) ∧
    (∀ (g₀ : Grammar) (op : GrammarOp),
      startRegistered g₀ → startRegistered (applyOp g₀ op)) ∧
    (∀ (g₀ : Grammar) (symbol : String),
      startRegistered (g₀.set_start_symbol symbol)) :=
  remove_production_last_and_start_invariant
    (((({} : Grammar).add_production "A" ["a"]).add_production "B"
      ["b"]).set_start_symbol "B") "A" ["a"] (by decide) (by decide) (by decide)

/-! ## Claim C3 -/

/-- Claim C3: in Stage A, when the start symbol is nullable the converter
generates a fresh NonTerminal `S′` (a name provably outside the current
nonterminal set), makes it the new start symbol, registers it, gives it the
production `S′ → startSymbol`, and gives it `S′ → ε` exactly when the old
start symbol retained no non-empty production after the subset rewriting;
when the start symbol is not nullable it is left unchanged.  (The start
symbol is registered among the nonterminals, a Grammar-model invariant —
claim C10.) -/
theorem eliminate_epsilon_start_handling
    (c : CNFConverter) (s₀ : String)
    (hstart : c.grammar.start_symbol = some s₀)
    (hreg : s₀ ∈ c.grammar.non_terminals) :
    (s₀ ∈ CNFConverter.find_nullable_symbols c.grammar →
      ∃ newStart,
        newStart ∉ c.grammar.non_terminals ∧
        (CNFConverter.eliminate_epsilon_productions c).grammar.start_symbol
          = some newStart ∧
        newStart ∈ (CNFConverter.eliminate_epsilon_productions c).grammar.non_terminals ∧
        [s₀] ∈ dictGetD
          (CNFConverter.eliminate_epsilon_productions c).grammar.productions newStart ∧
        ([] ∈ dictGetD
            (CNFConverter.eliminate_epsilon_productions c).grammar.productions newStart ↔
          dictGetD (CNFConverter.epsilonRewriteMap c.grammar.productions
            (CNFConverter.find_nullable_symbols c.grammar)) s₀ = [])) ∧
    (s₀ ∉ CNFConverter.find_nullable_symbols c.grammar →
      (CNFConverter.eliminate_epsilon_productions c).grammar.start_symbol = some s₀) := by
  constructor
  · intro hnul
    have hfresh : (CNFConverter.generate_new_variable "S" c).1 ∉ c.grammar.non_terminals :=
      generate_new_variable_fresh "S" c
    have hne : s₀ ≠ (CNFConverter.generate_new_variable "S" c).1 := by
      intro h
      exact hfresh (h ▸ hreg)
    refine ⟨(CNFConverter.generate_new_variable "S" c).1, hfresh, ?_, ?_, ?_, ?_⟩
    · simp only [CNFConverter.eliminate_epsilon_productions, hstart, if_pos hnul]
    · simp only [CNFConverter.eliminate_epsilon_productions, hstart, if_pos hnul]
      exact mem_setAdd.mpr (Or.inr rfl)
    · simp only [CNFConverter.eliminate_epsilon_productions, hstart, if_pos hnul]
      by_cases hc : dictGetD (dictSet
          (CNFConverter.epsilonRewriteMap c.grammar.productions
            (CNFConverter.find_nullable_symbols c.grammar))
          (CNFConverter.generate_new_variable "S" c).1 [[s₀]]) s₀ = []
      · rw [if_pos hc, dictGetD_dictAppend_self, dictGetD_dictSet_self]
        exact List.mem_append_left _ (List.mem_singleton.mpr rfl)
      · rw [if_neg hc, dictGetD_dictSet_self]
        exact List.mem_singleton.mpr rfl
    · simp only [CNFConverter.eliminate_epsilon_productions, hstart, if_pos hnul]
      rw [show dictGetD (dictSet
          (CNFConverter.epsilonRewriteMap c.grammar.productions
            (CNFConverter.find_nullable_symbols c.grammar))
          (CNFConverter.generate_new_variable "S" c).1 [[s₀]]) s₀ =
        dictGetD (CNFConverter.epsilonRewriteMap c.grammar.productions
          (CNFConverter.find_nullable_symbols c.grammar)) s₀ from
        dictGetD_dictSet_other _ _ _ _ hne]
      by_cases hc : dictGetD (CNFConverter.epsilonRewriteMap c.grammar.productions
          (CNFConverter.find_nullable_symbols c.grammar)) s₀ = []
      · rw [if_pos hc, dictGetD_dictAppend_self, dictGetD_dictSet_self]
        constructor
        · intro _
          exact hc
        · intro _
          exact List.mem_append_right _ (List.mem_singleton.mpr rfl)
      · rw [if_neg hc, dictGetD_dictSet_self]
        constructor
        · intro hmem
          exact absurd (List.mem_singleton.mp hmem) (by simp)
        · intro h
          exact absurd h hc
  · intro hnul
    simp only [CNFConverter.eliminate_epsilon_productions, hstart, if_neg hnul]

/-- Witness for C3 at the nullable-start grammar `S → ε | a`. -/
theorem eliminate_epsilon_start_handling_witness :
    ∃ newStart,
      newStart ∉ (CNFConverter.init nullableStartGrammar).grammar.non_terminals ∧
      (CNFConverter.eliminate_epsilon_productions
        (CNFConverter.init nullableStartGrammar)).grammar.start_symbol
        = some newStart ∧
      newStart ∈ (CNFConverter.eliminate_epsilon_productions
        (CNFConverter.init nullableStartGrammar)).grammar.non_terminals ∧
      ["S"] ∈ dictGetD (CNFConverter.eliminate_epsilon_productions
        (CNFConverter.init nullableStartGrammar)).grammar.productions newStart ∧
      ([] ∈ dictGetD (CNFConverter.eliminate_epsilon_productions
          (CNFConverter.init nullableStartGrammar)).grammar.productions newStart ↔
        dictGetD (CNFConverter.epsilonRewriteMap
          (CNFConverter.init nullableStartGrammar).grammar.productions
          (CNFConverter.find_nullable_symbols
            (CNFConverter.init nullableStartGrammar).grammar)) "S" = []) :=
  (eliminate_epsilon_start_handling (CNFConverter.init nullableStartGrammar) "S"
    (by decide) (by decide)).1 (by decide)

/-! ## Claim C4: unit-pair closure equals the transitive closure -/

/-- A direct unit pair, as `find_unit_productions` collects them. -/
def DirectUnit (g : Grammar) (a b : String) : Prop :=
  ProdMem g a [b] ∧ b ∈ g.non_terminals

theorem foldl_preserve_mem {α' β : Type} {f : List α' → β → List α'} {P : α' → Prop}
    {l : List β}
    (hf : ∀ acc x, x ∈ l → (∀ a ∈ acc, P a) → ∀ a ∈ f acc x, P a) :
    ∀ acc, (∀ a ∈ acc, P a) → ∀ a ∈ l.foldl f acc, P a := by
  induction l with
  | nil => intro acc h; exact h
  | cons x xs ih =>
    intro acc h
    exact ih (fun acc₂ y hy => hf acc₂ y (List.mem_cons_of_mem x hy))
      (f acc x) (hf acc x (List.mem_cons_self x xs) h)

theorem foldl_ne_nil_of_extends {α' β : Type} {f : List α' → β → List α'}
    (hf : ∀ acc x, ∃ extra, f acc x = acc ++ extra) (l : List β) (acc : List α')
    (hacc : acc ≠ []) : l.foldl f acc ≠ [] := by
  obtain ⟨news, hn⟩ := foldl_extends hf l acc
  rw [hn]
  intro hcontra
  exact hacc (List.append_eq_nil.mp hcontra).1

theorem mem_unitDirect {g : Grammar} {a b : String} :
    (a, b) ∈ CNFConverter.unitDirect g ↔ DirectUnit g a b := by
  unfold CNFConverter.unitDirect
  rw [mem_foldl_acc (G := fun (p : String × List (List String)) x =>
    ∃ prod ∈ p.2, ∃ s, prod = [s] ∧ s ∈ g.non_terminals ∧ x = (p.1, s))]
  · simp only [List.not_mem_nil, false_or]
    constructor
    · rintro ⟨p, hp, prod, hprod, s, rfl, hs, heq⟩
      obtain ⟨rfl, rfl⟩ : a = p.1 ∧ b = s := by
        have h₁ := congrArg Prod.fst heq
        have h₂ := congrArg Prod.snd heq
        exact ⟨h₁, h₂⟩
      exact ⟨⟨p.2, by simpa using hp, hprod⟩, hs⟩
    · rintro ⟨⟨prods, hmem, hr⟩, hb⟩
      exact ⟨(a, prods), hmem, [b], hr, b, rfl, hb, rfl⟩
  · intro acc p x
    rw [mem_foldl_acc (G := fun (prod : List String) x =>
      ∃ s, prod = [s] ∧ s ∈ g.non_terminals ∧ x = (p.1, s))]
    intro acc₂ prod x
    rcases prod with _ | ⟨s, _ | ⟨s₂, rest⟩⟩
    · show x ∈ acc₂ ↔ _
      constructor
      · exact Or.inl
      · rintro (h | ⟨s, hs, _⟩)
        · exact h
        · exact absurd hs (by simp)
    · show x ∈ (if s ∈ g.non_terminals then setAdd acc₂ (p.1, s) else acc₂) ↔ _
      by_cases hc : s ∈ g.non_terminals
      · rw [if_pos hc, mem_setAdd]
        constructor
        · rintro (h | rfl)
          · exact Or.inl h
          · exact Or.inr ⟨s, rfl, hc, rfl⟩
        · rintro (h | ⟨s₂, hs₂, hmem, rfl⟩)
          · exact Or.inl h
          · obtain rfl : s = s₂ := by injection hs₂
            exact Or.inr rfl
      · rw [if_neg hc]
        constructor
        · exact Or.inl
        · rintro (h | ⟨s₂, hs₂, hmem, rfl⟩)
          · exact h
          · obtain rfl : s = s₂ := by injection hs₂
            exact absurd hmem hc
    · show x ∈ acc₂ ↔ _
      constructor
      · exact Or.inl
      · rintro (h | ⟨s₃, hs, _⟩)
        · exact h
        · exact absurd hs (by simp)

theorem unitCollect_sound (pairs : List (String × String)) :
    ∀ x ∈ CNFConverter.unitCollect pairs, x ∉ pairs ∧
      ∃ p ∈ pairs, ∃ q ∈ pairs, p.2 = q.1 ∧ x = (p.1, q.2) := by
  unfold CNFConverter.unitCollect
  apply foldl_preserve_mem
    (P := fun x => x ∉ pairs ∧ ∃ p ∈ pairs, ∃ q ∈ pairs, p.2 = q.1 ∧ x = (p.1, q.2))
  · intro acc p hp hacc
    apply foldl_preserve_mem
      (P := fun x => x ∉ pairs ∧ ∃ p ∈ pairs, ∃ q ∈ pairs, p.2 = q.1 ∧ x = (p.1, q.2))
    · intro acc₂ q hq hacc₂ a ha
      by_cases hc : p.2 = q.1 ∧ (p.1, q.2) ∉ pairs ∧ (p.1, q.2) ∉ acc₂
      · rw [if_pos hc] at ha
        rcases List.mem_append.mp ha with h | h
        · exact hacc₂ a h
        · obtain rfl : a = (p.1, q.2) := List.mem_singleton.mp h
          exact ⟨hc.2.1, p, hp, q, hq, hc.1, rfl⟩
      · rw [if_neg hc] at ha
        exact hacc₂ a ha
    · exact hacc
  · intro a ha
    exact absurd ha (List.not_mem_nil a)

theorem unitInner_ne_nil {pairs : List (String × String)} {p q : String × String}
    (hq : q ∈ pairs) (hpq : p.2 = q.1) (hnot : (p.1, q.2) ∉ pairs) :
    ∀ (ql : List (String × String)) (news : List (String × String)), q ∈ ql →
      ql.foldl
        (fun news q =>
          if p.2 = q.1 ∧ (p.1, q.2) ∉ pairs ∧ (p.1, q.2) ∉ news then
            news ++ [(p.1, q.2)]
          else news)
        news ≠ [] := by
  intro ql
  induction ql with
  | nil => intro news h; exact absurd h (List.not_mem_nil q)
  | cons q₀ rest ih =>
    intro news hq₀
    have hext : ∀ (acc : List (String × String)) (x : String × String),
        ∃ extra, (if p.2 = x.1 ∧ (p.1, x.2) ∉ pairs ∧ (p.1, x.2) ∉ acc then
          acc ++ [(p.1, x.2)] else acc) = acc ++ extra := by
      intro acc x
      by_cases hc : p.2 = x.1 ∧ (p.1, x.2) ∉ pairs ∧ (p.1, x.2) ∉ acc
      · exact ⟨[(p.1, x.2)], by rw [if_pos hc]⟩
      · exact ⟨[], by rw [if_neg hc]; exact (List.append_nil acc).symm⟩
    rcases List.mem_cons.mp hq₀ with heq | hmem
    · rw [List.foldl_cons]
      by_cases hc : p.2 = q₀.1 ∧ (p.1, q₀.2) ∉ pairs ∧ (p.1, q₀.2) ∉ news
      · rw [if_pos hc]
        exact foldl_ne_nil_of_extends hext rest _ (by simp)
      · rw [if_neg hc]
        have hne : news ≠ [] := by
          intro hnil
          subst hnil
          exact hc ⟨heq ▸ hpq, heq ▸ hnot, List.not_mem_nil _⟩
        exact foldl_ne_nil_of_extends hext rest news hne
    · rw [List.foldl_cons]
      exact ih _ hmem

theorem unitCollect_ne_nil {pairs : List (String × String)} {p q : String × String}
    (hp : p ∈ pairs) (hq : q ∈ pairs) (hpq : p.2 = q.1)
    (hnot : (p.1, q.2) ∉ pairs) : CNFConverter.unitCollect pairs ≠ [] := by
  unfold CNFConverter.unitCollect
  have houter : ∀ (pl : List (String × String)) (news : List (String × String)),
      p ∈ pl →
      pl.foldl
        (fun news p =>
          pairs.foldl
            (fun news q =>
              if p.2 = q.1 ∧ (p.1, q.2) ∉ pairs ∧ (p.1, q.2) ∉ news then
                news ++ [(p.1, q.2)]
              else news)
            news)
        news ≠ [] := by
    intro pl
    induction pl with
    | nil => intro news h; exact absurd h (List.not_mem_nil p)
    | cons p₀ rest ih =>
      intro news hp₀
      rcases List.mem_cons.mp hp₀ with heq | hmem
      · rw [List.foldl_cons]
        have hinner := unitInner_ne_nil (p := p₀) hq (heq ▸ hpq) (heq ▸ hnot) pairs news hq
        have hext : ∀ (acc : List (String × String)) (x : String × String),
            ∃ extra,
              (pairs.foldl
                (fun news q =>
                  if x.2 = q.1 ∧ (x.1, q.2) ∉ pairs ∧ (x.1, q.2) ∉ news then
                    news ++ [(x.1, q.2)]
                  else news)
                acc) = acc ++ extra := by
          intro acc x
          apply foldl_extends
          intro acc₂ y
          by_cases hc : x.2 = y.1 ∧ (x.1, y.2) ∉ pairs ∧ (x.1, y.2) ∉ acc₂
          · exact ⟨[(x.1, y.2)], by rw [if_pos hc]⟩
          · exact ⟨[], by rw [if_neg hc]; exact (List.append_nil acc₂).symm⟩
        apply foldl_ne_nil_of_extends hext rest _ hinner
      · rw [List.foldl_cons]
        exact ih _ hmem
  exact houter pairs [] hp

theorem unitPass_extends (s : List (String × String)) :
    ∃ news, CNFConverter.unitPass s = s ++ news :=
  ⟨CNFConverter.unitCollect s, rfl⟩

theorem find_unit_sound (g : Grammar) :
    ∀ x ∈ CNFConverter.find_unit_productions g,
      Relation.TransGen (DirectUnit g) x.1 x.2 := by
  show ∀ x ∈ iterFix CNFConverter.unitPass _ (CNFConverter.unitDirect g), _
  apply iterFix_invariant
    (P := fun (x : String × String) => Relation.TransGen (DirectUnit g) x.1 x.2)
  · intro s hs x hx
    rcases List.mem_append.mp hx with h | h
    · exact hs x h
    · obtain ⟨_, p, hp, q, hq, hpq, rfl⟩ := unitCollect_sound s x h
      exact (hs p hp).trans (hpq ▸ hs q hq)
  · intro x hx
    exact Relation.TransGen.single (mem_unitDirect.mp hx)

theorem unitDirect_mem_universe (g : Grammar) :
    ∀ x ∈ CNFConverter.unitDirect g,
      x ∈ (CNFConverter.unitDirect g).map Prod.fst ×ˢ
        (CNFConverter.unitDirect g).map Prod.snd := by
  intro x hx
  exact List.mem_product.mpr
    ⟨List.mem_map.mpr ⟨x, hx, rfl⟩, List.mem_map.mpr ⟨x, hx, rfl⟩⟩

theorem find_unit_fixpoint (g : Grammar) :
    CNFConverter.unitPass (CNFConverter.find_unit_productions g)
      = CNFConverter.find_unit_productions g := by
  show CNFConverter.unitPass (iterFix CNFConverter.unitPass _ (CNFConverter.unitDirect g))
      = iterFix CNFConverter.unitPass _ (CNFConverter.unitDirect g)
  have hstep : ∀ s, (∀ x ∈ s,
      x ∈ (CNFConverter.unitDirect g).map Prod.fst ×ˢ
        (CNFConverter.unitDirect g).map Prod.snd) →
      ∃ news, CNFConverter.unitPass s = s ++ news ∧ (∀ x ∈ news,
        x ∈ (CNFConverter.unitDirect g).map Prod.fst ×ˢ
          (CNFConverter.unitDirect g).map Prod.snd ∧ x ∉ s) := by
    intro s hI
    refine ⟨CNFConverter.unitCollect s, rfl, ?_⟩
    intro x hx
    obtain ⟨hnot, p, hp, q, hq, hpq, rfl⟩ := unitCollect_sound s x hx
    refine ⟨List.mem_product.mpr ⟨?_, ?_⟩, hnot⟩
    · exact (List.mem_product.mp (hI p hp)).1
    · exact (List.mem_product.mp (hI q hq)).2
  have hinv : ∀ s, (∀ x ∈ s,
      x ∈ (CNFConverter.unitDirect g).map Prod.fst ×ˢ
        (CNFConverter.unitDirect g).map Prod.snd) →
      ∀ x ∈ CNFConverter.unitPass s,
        x ∈ (CNFConverter.unitDirect g).map Prod.fst ×ˢ
          (CNFConverter.unitDirect g).map Prod.snd := by
    intro s hI x hx
    rcases List.mem_append.mp hx with h | h
    · exact hI x h
    · obtain ⟨_, p, hp, q, hq, hpq, rfl⟩ := unitCollect_sound s x h
      exact List.mem_product.mpr
        ⟨(List.mem_product.mp (hI p hp)).1, (List.mem_product.mp (hI q hq)).2⟩
  exact iterFix_reaches_fix _ hstep hinv _ _ (unitDirect_mem_universe g)
    (Nat.lt_succ_of_le (List.length_filter_le _ _))

theorem find_unit_closed (g : Grammar) (p q : String × String)
    (hp : p ∈ CNFConverter.find_unit_productions g)
    (hq : q ∈ CNFConverter.find_unit_productions g) (hpq : p.2 = q.1) :
    (p.1, q.2) ∈ CNFConverter.find_unit_productions g := by
  by_contra hnot
  have hne := unitCollect_ne_nil hp hq hpq hnot
  have hfix := find_unit_fixpoint g
  unfold CNFConverter.unitPass at hfix
  have hlen := congrArg List.length hfix
  rw [List.length_append] at hlen
  exact hne (List.eq_nil_of_length_eq_zero (by omega))

theorem transGen_exists_head {α : Type} {r : α → α → Prop} {a b : α}
    (h : Relation.TransGen r a b) : ∃ c, r a c := by
  induction h with
  | single h => exact ⟨_, h⟩
  | tail _ _ ih => exact ih

theorem mem_find_unit_iff (g : Grammar) (a b : String) :
    (a, b) ∈ CNFConverter.find_unit_productions g ↔
      Relation.TransGen (DirectUnit g) a b := by
  constructor
  · intro h
    exact find_unit_sound g (a, b) h
  · intro h
    induction h with
    | single hd =>
      exact mem_iterFix_of_mem unitPass_extends _ _ _ (mem_unitDirect.mpr hd)
    | tail hab hbc ih =>
      rename_i b₂ c₂
      have hdir : (b₂, c₂) ∈ CNFConverter.find_unit_productions g :=
        mem_iterFix_of_mem unitPass_extends _ _ _ (mem_unitDirect.mpr hbc)
      exact find_unit_closed g (a, b₂) (b₂, c₂) ih hdir rfl

theorem dictGetD_eq_nil_of_not_hasKey {ps : List (String × List (List String))}
    {k : String} (h : dictHasKey ps k = false) : dictGetD ps k = [] := by
  induction ps with
  | nil => rfl
  | cons p rest ih =>
    obtain ⟨v, rs⟩ := p
    by_cases hv : v = k
    · simp [dictHasKey, hv] at h
    · simp only [dictHasKey, if_neg hv] at h
      simp only [dictGetD, if_neg hv]
      exact ih h

theorem dictHasKey_of_entry {ps : List (String × List (List String))}
    {k : String} {rs : List (List String)} (h : (k, rs) ∈ ps) :
    dictHasKey ps k = true := by
  induction ps with
  | nil => simp at h
  | cons p rest ih =>
    obtain ⟨v, rs₀⟩ := p
    rcases List.mem_cons.mp h with heq | hmem
    · obtain ⟨rfl, _⟩ := Prod.mk.injEq .. ▸ heq
      simp [dictHasKey]
    · by_cases hv : v = k
      · simp [dictHasKey, hv]
      · simp only [dictHasKey, if_neg hv]
        exact ih hmem

theorem dictGetD_map_value (F : String → List (List String) → List (List String)) :
    ∀ (ps : List (String × List (List String))) (k : String),
      dictGetD (ps.map (fun p => (p.1, F p.1 p.2))) k =
        if dictHasKey ps k then F k (dictGetD ps k) else [] := by
  intro ps
  induction ps with
  | nil => intro k; rfl
  | cons p rest ih =>
    intro k
    obtain ⟨v, rs⟩ := p
    by_cases hv : v = k
    · subst hv
      simp [dictGetD, dictHasKey]
    · simp only [List.map_cons, dictGetD, dictHasKey, if_neg hv]
      exact ih k

theorem prodMem_iff_dictGetD {g : Grammar}
    (hnd : (g.productions.map Prod.fst).Nodup) {A : String} {rhs : List String} :
    ProdMem g A rhs ↔ rhs ∈ dictGetD g.productions A := by
  constructor
  · rintro ⟨prods, hmem, hr⟩
    rw [dictGetD_of_mem_nodup hnd hmem]
    exact hr
  · intro h
    obtain ⟨rs, hentry, hy⟩ := exists_entry_of_mem_dictGetD h
    exact ⟨rs, hentry, hy⟩

/-- Membership in the dedup-append fold that Stage B uses for both the
original and the inherited right-hand sides. -/
theorem mem_stageB_fold {g : Grammar} {l : List (List String)}
    {acc : List (List String)} {rhs : List String} :
    rhs ∈ l.foldl
        (fun acc prod =>
          if ¬CNFConverter.isUnitRhs g prod ∧ prod ∉ acc then acc ++ [prod] else acc)
        acc ↔
      rhs ∈ acc ∨ (rhs ∈ l ∧ ¬CNFConverter.isUnitRhs g rhs = true) := by
  rw [mem_foldl_acc (G := fun (prod : List String) a =>
    a = prod ∧ ¬CNFConverter.isUnitRhs g prod = true)]
  · constructor
    · rintro (h | ⟨prod, hp, rfl, hu⟩)
      · exact Or.inl h
      · exact Or.inr ⟨hp, hu⟩
    · rintro (h | ⟨hp, hu⟩)
      · exact Or.inl h
      · exact Or.inr ⟨rhs, hp, rfl, hu⟩
  · intro acc₂ prod a
    by_cases hc : ¬CNFConverter.isUnitRhs g prod = true ∧ prod ∉ acc₂
    · rw [if_pos hc]
      rw [List.mem_append]
      constructor
      · rintro (h | h)
        · exact Or.inl h
        · exact Or.inr ⟨List.mem_singleton.mp h, hc.1⟩
      · rintro (h | ⟨rfl, _⟩)
        · exact Or.inl h
        · exact Or.inr (List.mem_singleton.mpr rfl)
    · rw [if_neg hc]
      constructor
      · exact Or.inl
      · rintro (h | ⟨rfl, hu⟩)
        · exact h
        · rcases Decidable.not_and_iff_or_not.mp hc with h₂ | h₂
          · exact absurd hu h₂
          · exact Decidable.not_not.mp h₂

/-- Claim C4: after Stage B, a right-hand side belongs to `A` exactly when
it is non-unit and either belonged to `A` already or belongs to some `B`
with `(A, B)` in the transitive closure of the direct unit pairs (the
computed closure provably equals `Relation.TransGen` of the direct unit
relation).  The `Nodup` hypothesis is the dict-key invariant; the key
hypothesis rules out the states where the Python code would raise a
`KeyError` reading `productions[b]`. -/
theorem eliminate_unit_characterization
    (c : CNFConverter)
    (hnd : (c.grammar.productions.map Prod.fst).Nodup)
    (hkeys : ∀ p ∈ CNFConverter.find_unit_productions c.grammar,
      dictHasKey c.grammar.productions p.2 = true)
    (A : String) (rhs : List String) :
    rhs ∈ dictGetD
        (CNFConverter.eliminate_unit_productions c).grammar.productions A ↔
      ¬CNFConverter.isUnitRhs c.grammar rhs = true ∧
        (rhs ∈ dictGetD c.grammar.productions A ∨
          ∃ B, Relation.TransGen (DirectUnit c.grammar) A B ∧
            rhs ∈ dictGetD c.grammar.productions B) := by
  have hmain : dictGetD
      (CNFConverter.eliminate_unit_productions c).grammar.productions A =
    (dictGetD (c.grammar.productions.map (fun p =>
      (p.1,
        (CNFConverter.find_unit_productions c.grammar).foldl
          (fun acc pair =>
            if pair.1 = p.1 then
              (dictGetD c.grammar.productions pair.2).foldl
                (fun acc prod =>
                  if ¬CNFConverter.isUnitRhs c.grammar prod ∧ prod ∉ acc then
                    acc ++ [prod]
                  else acc)
                acc
            else acc)
          (p.2.foldl
            (fun acc prod =>
              if ¬CNFConverter.isUnitRhs c.grammar prod ∧ prod ∉ acc then
                acc ++ [prod]
              else acc)
            [])))) A) := rfl
  rw [hmain, dictGetD_map_value (fun v prods =>
    (CNFConverter.find_unit_productions c.grammar).foldl
      (fun acc pair =>
        if pair.1 = v then
          (dictGetD c.grammar.productions pair.2).foldl
            (fun acc prod =>
              if ¬CNFConverter.isUnitRhs c.grammar prod ∧ prod ∉ acc then
                acc ++ [prod]
              else acc)
            acc
        else acc)
      (prods.foldl
        (fun acc prod =>
          if ¬CNFConverter.isUnitRhs c.grammar prod ∧ prod ∉ acc then
            acc ++ [prod]
          else acc)
        []))]
  by_cases hk : dictHasKey c.grammar.productions A = true
  · rw [if_pos hk]
    rw [mem_foldl_acc (G := fun (pair : String × String) a =>
      pair.1 = A ∧ a ∈ dictGetD c.grammar.productions pair.2 ∧
        ¬CNFConverter.isUnitRhs c.grammar a = true)]
    · rw [mem_stageB_fold]
      simp only [List.not_mem_nil, false_or]
      constructor
      · rintro (⟨hmem, hu⟩ | ⟨pair, hpair, rfl, hmem, hu⟩)
        · exact ⟨hu, Or.inl hmem⟩
        · refine ⟨hu, Or.inr ⟨pair.2, ?_, hmem⟩⟩
          have := find_unit_sound c.grammar pair hpair
          exact this
      · rintro ⟨hu, hmem | ⟨B, htrans, hmem⟩⟩
        · exact Or.inl ⟨hmem, hu⟩
        · exact Or.inr ⟨(A, B), (mem_find_unit_iff c.grammar A B).mpr htrans, rfl,
            hmem, hu⟩
    · intro acc pair a
      by_cases hc : pair.1 = A
      · rw [if_pos hc, mem_stageB_fold]
        constructor
        · rintro (h | ⟨hm, hu⟩)
          · exact Or.inl h
          · exact Or.inr ⟨hc, hm, hu⟩
        · rintro (h | ⟨_, hm, hu⟩)
          · exact Or.inl h
          · exact Or.inr ⟨hm, hu⟩
      · rw [if_neg hc]
        constructor
        · exact Or.inl
        · rintro (h | ⟨hcc, _⟩)
          · exact h
          · exact absurd hcc hc
  · rw [if_neg hk]
    have hnil : dictGetD c.grammar.productions A = [] :=
      dictGetD_eq_nil_of_not_hasKey (by simpa using hk)
    constructor
    · intro h
      exact absurd h (List.not_mem_nil rhs)
    · rintro ⟨_, hmem | ⟨B, htrans, _⟩⟩
      · rw [hnil] at hmem
        exact absurd hmem (List.not_mem_nil rhs)
      · obtain ⟨x, hx⟩ := transGen_exists_head htrans
        obtain ⟨prods, hentry, _⟩ := hx.1
        exact absurd (dictHasKey_of_entry hentry) hk

/-- Witness for C4 at the spec's unit-chain scenario `S → A`, `A → B`,
`B → c`: the characterization instantiated at `A := S`, `rhs := [c]`, plus
the concrete outcome — `S` ends with exactly the direct production `S → c`
and no unit right-hand side survives anywhere. -/
theorem eliminate_unit_characterization_witness :
    (["c"] ∈ dictGetD (CNFConverter.eliminate_unit_productions
        (CNFConverter.init unitChainGrammar)).grammar.productions "S" ↔
      ¬CNFConverter.isUnitRhs (CNFConverter.init unitChainGrammar).grammar ["c"] = true ∧
        (["c"] ∈ dictGetD (CNFConverter.init unitChainGrammar).grammar.productions "S" ∨
          ∃ B, Relation.TransGen
              (DirectUnit (CNFConverter.init unitChainGrammar).grammar) "S" B ∧
            ["c"] ∈ dictGetD (CNFConverter.init unitChainGrammar).grammar.productions B)) ∧
    dictGetD (CNFConverter.eliminate_unit_productions
      (CNFConverter.init unitChainGrammar)).grammar.productions "S" = [["c"]] ∧
    (CNFConverter.eliminate_unit_productions
      (CNFConverter.init unitChainGrammar)).grammar.productions.all
        (fun p => p.2.all (fun prod =>
          !CNFConverter.isUnitRhs (CNFConverter.eliminate_unit_productions
            (CNFConverter.init unitChainGrammar)).grammar prod)) = true :=
  ⟨eliminate_unit_characterization (CNFConverter.init unitChainGrammar) (by decide)
    (by decide) "S" ["c"], by decide, by decide⟩

/-! ## Claim C5 -/

/-- Claim C5, counterexample: `cnfUnreachableGrammar` (`S → a`, `A → b`)
is in CNF, yet `to_cnf` drops the unreachable `A` in Stage C: the
productions and the nonterminal sets of the result differ from the input,
so `to_cnf` is not the identity on already-CNF grammars — Stage C fires
regardless. -/
theorem to_cnf_not_identity_on_cnf_input :
    cnfUnreachableGrammar.is_in_cnf = true ∧
    cnfUnreachableGrammar.productions = [("S", [["a"]]), ("A", [["b"]])] ∧
    (CNFConverter.to_cnf (CNFConverter.init cnfUnreachableGrammar)).1.productions
      = [("S", [["a"]])] ∧
    "A" ∈ cnfUnreachableGrammar.non_terminals ∧
    "A" ∉ (CNFConverter.to_cnf (CNFConverter.init cnfUnreachableGrammar)).1.non_terminals := by
  decide

/-- Shared helper: the grammar `to_cnf` returns is the Stage A-D pipeline's
grammar, and the returned converter is the pipeline's final state. -/
theorem to_cnf_components (c : CNFConverter) :
    (CNFConverter.to_cnf c).1 =
      (CNFConverter.convert_to_binary_form (CNFConverter.eliminate_useless_symbols
        (CNFConverter.eliminate_unit_productions
          (CNFConverter.eliminate_epsilon_productions c)))).grammar ∧
    (CNFConverter.to_cnf c).2.2 =
      CNFConverter.convert_to_binary_form (CNFConverter.eliminate_useless_symbols
        (CNFConverter.eliminate_unit_productions
          (CNFConverter.eliminate_epsilon_productions c))) := by
  unfold CNFConverter.to_cnf
  split
  · exact ⟨rfl, rfl⟩
  · exact ⟨rfl, rfl⟩

/-- With no nullable symbol, a mask keeps a segment only when every bit of
the segment's index range is set. -/
theorem maskCombination_nil_nullable (mask : Nat) :
    ∀ (seg : List String) (i : Nat),
      CNFConverter.maskCombination [] mask seg i =
        if ∀ j < seg.length, mask.testBit (i + j) then some seg else none := by
  intro seg
  induction seg with
  | nil =>
    intro i
    rw [if_pos (by intro j hj; simp at hj)]
    rfl
  | cons s rest ih =>
    intro i
    show (if mask.testBit i then (CNFConverter.maskCombination [] mask rest (i + 1)).map _
      else if s ∈ ([] : List String) then _ else none) = _
    by_cases hb : mask.testBit i
    · rw [if_pos hb, ih (i + 1)]
      by_cases hall : ∀ j < rest.length, mask.testBit (i + 1 + j)
      · rw [if_pos hall, if_pos ?_]
        · rfl
        · intro j hj
          match j with
          | 0 => simpa using hb
          | j + 1 =>
            have := hall j (by simpa using hj)
            rw [show i + (j + 1) = i + 1 + j by omega]
            exact this
      · rw [if_neg hall, if_neg ?_]
        · rfl
        · intro hcontra
          apply hall
          intro j hj
          have := hcontra (j + 1) (by simpa using hj)
          rw [show i + 1 + j = i + (j + 1) by omega]
          exact this
    · rw [if_neg hb, if_neg (by simp)]
      rw [if_neg ?_]
      intro hcontra
      exact hb (by simpa using hcontra 0 (by simp))

theorem filterMap_eq_singleton {α β : Type} {f : α → Option β} :
    ∀ {l : List α}, l.Nodup → ∀ (m₀ : α) (v : β), m₀ ∈ l → f m₀ = some v →
      (∀ m ∈ l, m ≠ m₀ → f m = none) → l.filterMap f = [v] := by
  intro l
  induction l with
  | nil => intro _ m₀ v hm; simp at hm
  | cons x xs ih =>
    intro hnd m₀ v hm hv hothers
    rw [List.nodup_cons] at hnd
    rcases List.mem_cons.mp hm with heq | hmem
    · subst heq
      rw [List.filterMap_cons, hv]
      have : xs.filterMap f = [] := by
        rw [List.filterMap_eq_nil_iff]
        intro a ha
        exact hothers a (List.mem_cons_of_mem _ ha)
          (fun hcontra => hnd.1 (hcontra ▸ ha))
      rw [this]
    · rw [List.filterMap_cons]
      have hx : f x = none :=
        hothers x (List.mem_cons_self _ _) (fun hcontra => hnd.1 (hcontra ▸ hmem))
      rw [hx]
      exact ih hnd.2 m₀ v hmem hv
        (fun m hmmem hne => hothers m (List.mem_cons_of_mem _ hmmem) hne)

/-- With no nullable symbol, the subset enumeration returns the production
itself, once. -/
theorem generate_nullable_combinations_nil (prod : List String) (hne : prod ≠ []) :
    CNFConverter.generate_nullable_combinations prod [] = [prod] := by
  unfold CNFConverter.generate_nullable_combinations
  rw [if_neg hne]
  have hlen : 0 < prod.length := List.length_pos.mpr hne
  have hmain : (List.range (2 ^ prod.length)).filterMap
      (fun mask =>
        match CNFConverter.maskCombination [] mask prod 0 with
        | none => none
        | some combination => if combination = [] then none else some combination)
      = [prod] := by
    apply filterMap_eq_singleton (List.nodup_range _) (2 ^ prod.length - 1) prod
    · exact List.mem_range.mpr (by have := Nat.one_le_two_pow (n := prod.length); omega)
    · rw [maskCombination_nil_nullable, if_pos ?_]
      · show (if prod = [] then (none : Option (List String)) else some prod) = some prod
        rw [if_neg hne]
      · intro j hj
        rw [Nat.testBit_two_pow_sub_one]
        simpa using (by omega : 0 + j < prod.length)
    · intro m hm hne₂
      rw [maskCombination_nil_nullable, if_neg ?_]
      intro hall
      apply hne₂
      apply Nat.eq_of_testBit_eq
      intro k
      by_cases hk : k < prod.length
      · rw [Nat.testBit_two_pow_sub_one]
        have := hall k hk
        rw [show (0 : Nat) + k = k by omega] at this
        simp [this, hk]
      · rw [Nat.testBit_two_pow_sub_one]
        have hmlt : m < 2 ^ k := by
          have h₁ : m < 2 ^ prod.length := List.mem_range.mp hm
          have h₂ : (2 : Nat) ^ prod.length ≤ 2 ^ k :=
            Nat.pow_le_pow_right (by omega) (by omega)
          omega
        rw [Nat.testBit_lt_two_pow hmlt]
        simp [hk]
  rw [hmain]
  show (if prod ∈ ([] : List (List String)) then ([] : List (List String))
    else [] ++ [prod]) = [prod]
  rw [if_neg (List.not_mem_nil prod)]
  rfl

/-! ### Stage identities on an already-clean CNF grammar -/

theorem nodup_append_shift {α : Type} {acc : List α} {x : α} {rest : List α}
    (h : (acc ++ x :: rest).Nodup) :
    x ∉ acc ∧ ((acc ++ [x]) ++ rest).Nodup := by
  constructor
  · intro hmem
    have := List.disjoint_of_nodup_append h
    exact this hmem (List.mem_cons_self x rest)
  · rw [List.append_assoc, List.singleton_append]
    exact h

theorem stageA_fold_id :
    ∀ (l acc : List (List String)),
      (∀ prod ∈ l, prod ≠ [] ∧ prod ≠ ["ε"]) → (acc ++ l).Nodup →
      l.foldl
        (fun acc prod =>
          if prod ≠ [] ∧ prod ≠ ["ε"] then
            (CNFConverter.generate_nullable_combinations prod []).foldl
              (fun acc combination =>
                if combination ≠ [] ∧ combination ∉ acc then acc ++ [combination]
                else acc)
              acc
          else acc)
        acc = acc ++ l := by
  intro l
  induction l with
  | nil => intro acc _ _; exact (List.append_nil acc).symm
  | cons prod rest ih =>
    intro acc hcond hnd
    obtain ⟨hnotin, hnd₂⟩ := nodup_append_shift hnd
    have hp := hcond prod (List.mem_cons_self _ _)
    rw [List.foldl_cons, if_pos hp, generate_nullable_combinations_nil prod hp.1]
    rw [List.foldl_cons, List.foldl_nil, if_pos ⟨hp.1, hnotin⟩]
    rw [ih (acc ++ [prod]) (fun q hq => hcond q (List.mem_cons_of_mem _ hq)) hnd₂]
    rw [List.append_assoc, List.singleton_append]

theorem epsilonRewriteMap_nil_id (ps : List (String × List (List String)))
    (hcond : ∀ p ∈ ps, ∀ prod ∈ p.2, prod ≠ [] ∧ prod ≠ ["ε"])
    (hdup : ∀ p ∈ ps, p.2.Nodup) :
    CNFConverter.epsilonRewriteMap ps [] = ps := by
  unfold CNFConverter.epsilonRewriteMap
  have hcongr : ∀ p ∈ ps, (p.1,
      p.2.foldl
        (fun acc prod =>
          if prod ≠ [] ∧ prod ≠ ["ε"] then
            (CNFConverter.generate_nullable_combinations prod []).foldl
              (fun acc combination =>
                if combination ≠ [] ∧ combination ∉ acc then acc ++ [combination]
                else acc)
              acc
          else acc)
        []) = p := by
    intro p hp
    have := stageA_fold_id p.2 [] (hcond p hp) (by simpa using hdup p hp)
    rw [this]
    rfl
  rw [List.map_congr_left hcongr, List.map_id']

theorem no_eps_prods_of_nullable_nil {g : Grammar}
    (hnul : CNFConverter.find_nullable_symbols g = []) :
    ∀ p ∈ g.productions, ∀ prod ∈ p.2, prod ≠ [] ∧ prod ≠ ["ε"] := by
  intro p hp prod hprod
  constructor
  · intro heq
    have hd : p.1 ∈ CNFConverter.nullableDirect g :=
      mem_nullableDirect.mpr ⟨p, hp, prod, hprod, Or.inl heq, rfl⟩
    have := mem_find_nullable_of_direct hd
    rw [hnul] at this
    exact absurd this (List.not_mem_nil _)
  · intro heq
    have hd : p.1 ∈ CNFConverter.nullableDirect g :=
      mem_nullableDirect.mpr ⟨p, hp, prod, hprod, Or.inr heq, rfl⟩
    have := mem_find_nullable_of_direct hd
    rw [hnul] at this
    exact absurd this (List.not_mem_nil _)

theorem stageA_id (c : CNFConverter)
    (hnul : CNFConverter.find_nullable_symbols c.grammar = [])
    (hdup : ∀ p ∈ c.grammar.productions, p.2.Nodup) :
    CNFConverter.eliminate_epsilon_productions c = c := by
  have hbase : CNFConverter.epsilonRewriteMap c.grammar.productions
      (CNFConverter.find_nullable_symbols c.grammar) = c.grammar.productions := by
    rw [hnul]
    exact epsilonRewriteMap_nil_id _ (no_eps_prods_of_nullable_nil hnul) hdup
  unfold CNFConverter.eliminate_epsilon_productions
  split
  · next s₀ heq =>
    rw [if_neg (by rw [hnul]; exact List.not_mem_nil s₀), hbase]
  · rw [hbase]

theorem find_unit_nil {g : Grammar}
    (hunit : CNFConverter.unitDirect g = []) :
    CNFConverter.find_unit_productions g = [] := by
  unfold CNFConverter.find_unit_productions
  rw [hunit]
  rfl

theorem stageB_fold_id (g : Grammar) :
    ∀ (l acc : List (List String)),
      (∀ prod ∈ l, ¬CNFConverter.isUnitRhs g prod = true) → (acc ++ l).Nodup →
      l.foldl
        (fun acc prod =>
          if ¬CNFConverter.isUnitRhs g prod ∧ prod ∉ acc then acc ++ [prod] else acc)
        acc = acc ++ l := by
  intro l
  induction l with
  | nil => intro acc _ _; exact (List.append_nil acc).symm
  | cons prod rest ih =>
    intro acc hcond hnd
    obtain ⟨hnotin, hnd₂⟩ := nodup_append_shift hnd
    rw [List.foldl_cons, if_pos ⟨hcond prod (List.mem_cons_self _ _), hnotin⟩]
    rw [ih (acc ++ [prod]) (fun q hq => hcond q (List.mem_cons_of_mem _ hq)) hnd₂]
    rw [List.append_assoc, List.singleton_append]

theorem no_unit_prods_of_unitDirect_nil {g : Grammar}
    (hunit : CNFConverter.unitDirect g = []) :
    ∀ p ∈ g.productions, ∀ prod ∈ p.2, ¬CNFConverter.isUnitRhs g prod = true := by
  intro p hp prod hprod hu
  rcases prod with _ | ⟨s, _ | ⟨s₂, rest⟩⟩
  · exact absurd hu (by simp [CNFConverter.isUnitRhs])
  · have hs : s ∈ g.non_terminals := by
      simpa [CNFConverter.isUnitRhs] using hu
    have hd : (p.1, s) ∈ CNFConverter.unitDirect g :=
      mem_unitDirect.mpr ⟨⟨p.2, by simpa using hp, hprod⟩, hs⟩
    rw [hunit] at hd
    exact absurd hd (List.not_mem_nil _)
  · exact absurd hu (by simp [CNFConverter.isUnitRhs])

theorem stageB_id (c : CNFConverter)
    (hunit : CNFConverter.unitDirect c.grammar = [])
    (hdup : ∀ p ∈ c.grammar.productions, p.2.Nodup) :
    CNFConverter.eliminate_unit_productions c = c := by
  have hmap : c.grammar.productions.map (fun p =>
      (p.1,
        (CNFConverter.find_unit_productions c.grammar).foldl
          (fun acc pair =>
            if pair.1 = p.1 then
              (dictGetD c.grammar.productions pair.2).foldl
                (fun acc prod =>
                  if ¬CNFConverter.isUnitRhs c.grammar prod ∧ prod ∉ acc then
                    acc ++ [prod]
                  else acc)
                acc
            else acc)
          (p.2.foldl
            (fun acc prod =>
              if ¬CNFConverter.isUnitRhs c.grammar prod ∧ prod ∉ acc then
                acc ++ [prod]
              else acc)
            []))) = c.grammar.productions := by
    have hcongr : ∀ p ∈ c.grammar.productions, (p.1,
        (CNFConverter.find_unit_productions c.grammar).foldl
          (fun acc pair =>
            if pair.1 = p.1 then
              (dictGetD c.grammar.productions pair.2).foldl
                (fun acc prod =>
                  if ¬CNFConverter.isUnitRhs c.grammar prod ∧ prod ∉ acc then
                    acc ++ [prod]
                  else acc)
                acc
            else acc)
          (p.2.foldl
            (fun acc prod =>
              if ¬CNFConverter.isUnitRhs c.grammar prod ∧ prod ∉ acc then
                acc ++ [prod]
              else acc)
            [])) = p := by
      intro p hp
      rw [find_unit_nil hunit, List.foldl_nil]
      have := stageB_fold_id c.grammar p.2 []
        (fun prod hprod => no_unit_prods_of_unitDirect_nil hunit p hp prod hprod)
        (by simpa using hdup p hp)
      rw [this]
      rfl
    rw [List.map_congr_left hcongr, List.map_id']
  show { c with grammar := { c.grammar with productions := _ } } = c
  rw [hmap]

theorem filterMap_eq_self_of {α : Type} {f : α → Option α} :
    ∀ {l : List α}, (∀ p ∈ l, f p = some p) → l.filterMap f = l := by
  intro l
  induction l with
  | nil => intro _; rfl
  | cons x xs ih =>
    intro h
    rw [List.filterMap_cons, h x (List.mem_cons_self _ _),
      ih (fun p hp => h p (List.mem_cons_of_mem _ hp))]

theorem generatingPass_extends (ps : List (String × List (List String)))
    (s : List String) : ∃ news, CNFConverter.generatingPass ps s = s ++ news := by
  refine foldl_extends ?_ ps s
  intro acc p
  by_cases h₁ : p.1 ∈ acc
  · exact ⟨[], by rw [if_pos h₁]; exact (List.append_nil acc).symm⟩
  · by_cases h₂ : p.2.any (fun prod => prod ≠ [] && prod.all (fun s => s ∈ acc)) = true
    · exact ⟨[p.1], by rw [if_neg h₁, if_pos h₂]⟩
    · exact ⟨[], by rw [if_neg h₁, if_neg h₂]; exact (List.append_nil acc).symm⟩

theorem terminals_mem_generating {g : Grammar} {t : String} (h : t ∈ g.terminals) :
    t ∈ CNFConverter.find_generating_symbols g :=
  mem_iterFix_of_mem (generatingPass_extends g.productions) _ _ _
    (mem_setAddAll.mpr (Or.inr h))

theorem stageC_projections (c : CNFConverter)
    (hgenk : ∀ p ∈ c.grammar.productions,
      p.1 ∈ CNFConverter.find_generating_symbols c.grammar)
    (hgens : ∀ p ∈ c.grammar.productions, ∀ prod ∈ p.2, ∀ s ∈ prod,
      s ∈ CNFConverter.find_generating_symbols c.grammar)
    (hreachk : ∀ p ∈ c.grammar.productions,
      p.1 ∈ CNFConverter.find_reachable_symbols c.grammar) :
    (CNFConverter.eliminate_useless_symbols c).grammar.productions
        = c.grammar.productions ∧
    (CNFConverter.eliminate_useless_symbols c).grammar.non_terminals
        = setAddAll [] (c.grammar.productions.map Prod.fst) ∧
    (CNFConverter.eliminate_useless_symbols c).grammar.terminals
        = c.grammar.terminals ∧
    (CNFConverter.eliminate_useless_symbols c).grammar.start_symbol
        = c.grammar.start_symbol ∧
    (CNFConverter.eliminate_useless_symbols c).new_var_counter
        = c.new_var_counter := by
  have hfiltered : c.grammar.productions.filterMap (fun p =>
      if p.1 ∈ CNFConverter.find_generating_symbols c.grammar then
        some (p.1, p.2.filter (fun prod =>
          prod.all (fun s => s ∈ CNFConverter.find_generating_symbols c.grammar)))
      else none) = c.grammar.productions := by
    apply filterMap_eq_self_of
    intro p hp
    rw [if_pos (hgenk p hp)]
    have hfil : p.2.filter (fun prod =>
        prod.all (fun s => s ∈ CNFConverter.find_generating_symbols c.grammar)) = p.2 := by
      apply List.filter_eq_self.mpr
      intro prod hprod
      apply List.all_eq_true.mpr
      intro s hs
      exact decide_eq_true (hgens p hp prod hprod s hs)
    rw [hfil]
  have hfinal : (c.grammar.productions.filterMap (fun p =>
      if p.1 ∈ CNFConverter.find_generating_symbols c.grammar then
        some (p.1, p.2.filter (fun prod =>
          prod.all (fun s => s ∈ CNFConverter.find_generating_symbols c.grammar)))
      else none)).filterMap (fun p =>
        if p.1 ∈ CNFConverter.find_reachable_symbols
            { c.grammar with
              productions := c.grammar.productions.filterMap (fun p =>
                if p.1 ∈ CNFConverter.find_generating_symbols c.grammar then
                  some (p.1, p.2.filter (fun prod =>
                    prod.all (fun s =>
                      s ∈ CNFConverter.find_generating_symbols c.grammar)))
                else none) } then
          some p
        else none) = c.grammar.productions := by
    rw [hfiltered]
    apply filterMap_eq_self_of
    intro p hp
    rw [if_pos]
    exact hreachk p hp
  refine ⟨hfinal, ?_, rfl, rfl, rfl⟩
  exact congrArg (fun l => setAddAll [] (l.map Prod.fst)) hfinal

theorem dictSet_append_absent {ps : List (String × List (List String))}
    {k : String} {v : List (List String)} (h : k ∉ ps.map Prod.fst) :
    dictSet ps k v = ps ++ [(k, v)] := by
  induction ps with
  | nil => rfl
  | cons p rest ih =>
    obtain ⟨w, rs⟩ := p
    simp only [List.map_cons, List.mem_cons] at h
    push_neg at h
    show (if w = k then _ else _) = _
    rw [if_neg (Ne.symm h.1)]
    rw [ih h.2]
    rfl

theorem dictAppend_append_last {d : List (String × List (List String))}
    {k : String} {rs : List (List String)} {x : List String}
    (h : k ∉ d.map Prod.fst) :
    dictAppend (d ++ [(k, rs)]) k x = d ++ [(k, rs ++ [x])] := by
  induction d with
  | nil =>
    show (if k = k then _ else _) = _
    rw [if_pos rfl]
    rfl
  | cons p rest ih =>
    obtain ⟨w, rs₀⟩ := p
    simp only [List.map_cons, List.mem_cons] at h
    push_neg at h
    show (if w = k then _ else _) = _
    rw [if_neg (Ne.symm h.1)]
    rw [List.cons_append]
    exact congrArg _ (ih h.2)

theorem stageD_inner (v : String) :
    ∀ (prods₂ : List (List String)) (d : List (String × List (List String)))
      (counter : Nat) (nts : List String) (rs : List (List String)),
      (∀ prod ∈ prods₂, prod.length ≤ 2) → v ∉ d.map Prod.fst →
      prods₂.foldl
        (fun st prod =>
          if prod.length ≤ 2 then (dictAppend st.1 v prod, st.2.1, st.2.2)
          else CNFConverter.convertLongProduction v prod st)
        (d ++ [(v, rs)], counter, nts) = (d ++ [(v, rs ++ prods₂)], counter, nts) := by
  intro prods₂
  induction prods₂ with
  | nil =>
    intro d counter nts rs _ _
    rw [List.foldl_nil, List.append_nil]
  | cons prod rest ih =>
    intro d counter nts rs hshort habs
    rw [List.foldl_cons, if_pos (hshort prod (List.mem_cons_self _ _))]
    show rest.foldl _ (dictAppend (d ++ [(v, rs)]) v prod, counter, nts) = _
    rw [dictAppend_append_last habs]
    rw [ih d counter nts (rs ++ [prod])
      (fun q hq => hshort q (List.mem_cons_of_mem _ hq)) habs]
    rw [List.append_assoc, List.singleton_append]

theorem stageD_outer :
    ∀ (suffix d : List (String × List (List String))) (counter : Nat)
      (nts : List String),
      (((d ++ suffix).map Prod.fst)).Nodup →
      (∀ p ∈ suffix, ∀ prod ∈ p.2, prod.length ≤ 2) →
      suffix.foldl
        (fun st p =>
          p.2.foldl
            (fun st prod =>
              if prod.length ≤ 2 then (dictAppend st.1 p.1 prod, st.2.1, st.2.2)
              else CNFConverter.convertLongProduction p.1 prod st)
            (dictSet st.1 p.1 [], st.2.1, st.2.2))
        (d, counter, nts) = (d ++ suffix, counter, nts) := by
  intro suffix
  induction suffix with
  | nil =>
    intro d counter nts _ _
    rw [List.foldl_nil, List.append_nil]
  | cons p rest ih =>
    intro d counter nts hnd hshort
    have habs : p.1 ∉ d.map Prod.fst := by
      rw [List.map_append, List.map_cons] at hnd
      intro hmem
      exact List.disjoint_of_nodup_append hnd hmem (List.mem_cons_self _ _)
    rw [List.foldl_cons]
    show rest.foldl _
      (p.2.foldl _ (dictSet d p.1 [], counter, nts)) = _
    rw [dictSet_append_absent habs]
    rw [stageD_inner p.1 p.2 d counter nts []
      (hshort p (List.mem_cons_self _ _)) habs]
    have hnd₂ : (((d ++ [(p.1, p.2)]) ++ rest).map Prod.fst).Nodup := by
      rw [List.append_assoc, List.singleton_append]
      exact hnd
    rw [List.nil_append]
    rw [ih (d ++ [(p.1, p.2)]) counter nts hnd₂
      (fun q hq => hshort q (List.mem_cons_of_mem _ hq))]
    rw [List.append_assoc, List.singleton_append]

theorem stageD_projections (c : CNFConverter)
    (hnd : (c.grammar.productions.map Prod.fst).Nodup)
    (hshort : ∀ p ∈ c.grammar.productions, ∀ prod ∈ p.2, prod.length ≤ 2) :
    (CNFConverter.convert_to_binary_form c).grammar.productions
        = c.grammar.productions ∧
    (CNFConverter.convert_to_binary_form c).grammar.non_terminals
        = c.grammar.non_terminals ∧
    (CNFConverter.convert_to_binary_form c).grammar.terminals
        = c.grammar.terminals ∧
    (CNFConverter.convert_to_binary_form c).grammar.start_symbol
        = c.grammar.start_symbol ∧
    (CNFConverter.convert_to_binary_form c).new_var_counter
        = c.new_var_counter := by
  have hst := stageD_outer c.grammar.productions [] c.new_var_counter
    c.grammar.non_terminals (by simpa using hnd) hshort
  exact ⟨congrArg (fun t => t.1) hst, congrArg (fun t => t.2.2) hst, rfl, rfl,
    congrArg (fun t => t.2.1) hst⟩

theorem is_in_cnf_spec {g : Grammar} (h : g.is_in_cnf = true) :
    ∃ s, g.start_symbol = some s ∧
      ∀ p ∈ g.productions, ∀ prod ∈ p.2, Grammar.cnfProdOk g s p.1 prod = true := by
  unfold Grammar.is_in_cnf at h
  cases hs : g.start_symbol with
  | none => rw [hs] at h; exact absurd h (by simp)
  | some s =>
    rw [hs] at h
    refine ⟨s, rfl, ?_⟩
    intro p hp prod hprod
    exact List.all_eq_true.mp (List.all_eq_true.mp h p hp) prod hprod

theorem cnfProdOk_length {g : Grammar} {s v : String} {prod : List String}
    (h : Grammar.cnfProdOk g s v prod = true) : prod.length ≤ 2 := by
  rcases prod with _ | ⟨a, _ | ⟨b, _ | ⟨c₀, rest⟩⟩⟩
  · simp
  · simp
  · simp
  · exact absurd h (by simp [Grammar.cnfProdOk])

theorem cnfProdOk_symbols_generating {g : Grammar} {s v : String}
    {prod : List String} (h : Grammar.cnfProdOk g s v prod = true)
    (hgen : ∀ v ∈ g.non_terminals, v ∈ CNFConverter.find_generating_symbols g) :
    ∀ x ∈ prod, x ∈ CNFConverter.find_generating_symbols g := by
  rcases prod with _ | ⟨a, _ | ⟨b, _ | ⟨c₀, rest⟩⟩⟩
  · intro x hx; simp at hx
  · intro x hx
    obtain rfl : x = a := by simpa using hx
    have ha : x ∈ g.terminals := by
      simpa [Grammar.cnfProdOk] using h
    exact terminals_mem_generating ha
  · intro x hx
    have hab : a ∈ g.non_terminals ∧ b ∈ g.non_terminals := by
      simpa [Grammar.cnfProdOk] using h
    rcases List.mem_cons.mp hx with rfl | hx₂
    · exact hgen x hab.1
    · obtain rfl : x = b := by simpa using hx₂
      exact hgen x hab.2
  · exact absurd h (by simp [Grammar.cnfProdOk])

/-- Claim C5, amended: on a grammar already in CNF in which no stage has
anything to do — no nullable symbol, no direct unit pair, every nonterminal
generating and reachable, production lists duplicate-free, the dict-key
invariants in place — `to_cnf` returns identical productions, terminals,
nonterminal set (as a set) and start symbol, and generates no fresh
variable (the counter stays 0).  The counterexample shows the claim as
stated fails: Stage C fires even on CNF inputs, so "no stage fires on an
already-CNF input" needed these extra hypotheses. -/
theorem to_cnf_identity_on_clean_cnf (g : Grammar)
    (hcnf : g.is_in_cnf = true)
    (hnd : (g.productions.map Prod.fst).Nodup)
    (hdup : ∀ p ∈ g.productions, p.2.Nodup)
    (hnul : CNFConverter.find_nullable_symbols g = [])
    (hunit : CNFConverter.unitDirect g = [])
    (hgen : ∀ v ∈ g.non_terminals, v ∈ CNFConverter.find_generating_symbols g)
    (hreach : ∀ v ∈ g.non_terminals, v ∈ CNFConverter.find_reachable_symbols g)
    (hkeysnt : ∀ p ∈ g.productions, p.1 ∈ g.non_terminals)
    (hntkeys : ∀ v ∈ g.non_terminals, v ∈ g.productions.map Prod.fst) :
    (CNFConverter.to_cnf (CNFConverter.init g)).1.productions = g.productions ∧
    (CNFConverter.to_cnf (CNFConverter.init g)).1.terminals = g.terminals ∧
    (∀ x, x ∈ (CNFConverter.to_cnf (CNFConverter.init g)).1.non_terminals ↔
      x ∈ g.non_terminals) ∧
    (CNFConverter.to_cnf (CNFConverter.init g)).1.start_symbol = g.start_symbol ∧
    (CNFConverter.to_cnf (CNFConverter.init g)).2.2.new_var_counter = 0 := by
  obtain ⟨s, hs, hok⟩ := is_in_cnf_spec hcnf
  have hinit : CNFConverter.init g = ⟨g, g, 0⟩ := by
    unfold CNFConverter.init
    rw [Grammar.copy_eq]
  obtain ⟨h1, h2⟩ := to_cnf_components (CNFConverter.init g)
  rw [hinit] at h1 h2 ⊢
  have hA : CNFConverter.eliminate_epsilon_productions ⟨g, g, 0⟩ = ⟨g, g, 0⟩ :=
    stageA_id ⟨g, g, 0⟩ hnul hdup
  have hB : CNFConverter.eliminate_unit_productions ⟨g, g, 0⟩ = ⟨g, g, 0⟩ :=
    stageB_id ⟨g, g, 0⟩ hunit hdup
  rw [hA, hB] at h1 h2
  have hCp := stageC_projections ⟨g, g, 0⟩
    (fun p hp => hgen p.1 (hkeysnt p hp))
    (fun p hp prod hprod => cnfProdOk_symbols_generating (hok p hp prod hprod) hgen)
    (fun p hp => hreach p.1 (hkeysnt p hp))
  obtain ⟨hC1, hC2, hC3, hC4, hC5⟩ := hCp
  have hDnd : ((CNFConverter.eliminate_useless_symbols
      ⟨g, g, 0⟩).grammar.productions.map Prod.fst).Nodup := by
    rw [hC1]; exact hnd
  have hDshort : ∀ p ∈ (CNFConverter.eliminate_useless_symbols
      ⟨g, g, 0⟩).grammar.productions, ∀ prod ∈ p.2, prod.length ≤ 2 := by
    rw [hC1]
    intro p hp prod hprod
    exact cnfProdOk_length (hok p hp prod hprod)
  obtain ⟨hD1, hD2, hD3, hD4, hD5⟩ := stageD_projections
    (CNFConverter.eliminate_useless_symbols ⟨g, g, 0⟩) hDnd hDshort
  rw [h1, h2]
  refine ⟨hD1.trans hC1, hD3.trans hC3, ?_, hD4.trans hC4, hD5.trans hC5⟩
  intro x
  rw [hD2, hC2, mem_setAddAll]
  simp only [List.not_mem_nil, false_or]
  constructor
  · intro hx
    obtain ⟨p, hp, rfl⟩ := List.mem_map.mp hx
    exact hkeysnt p hp
  · intro hx
    exact hntkeys x hx

/-- Witness for the amended C5 at the CNF grammar
`S → A B | a`, `A → a`, `B → b`. -/
theorem to_cnf_identity_on_clean_cnf_witness :
    (CNFConverter.to_cnf (CNFConverter.init
      { productions := [("S", [["A", "B"], ["a"]]), ("A", [["a"]]), ("B", [["b"]])]
        terminals := ["a", "b"]
        non_terminals := ["S", "A", "B"]
        start_symbol := some "S" })).1.productions
      = [("S", [["A", "B"], ["a"]]), ("A", [["a"]]), ("B", [["b"]])] ∧
    (CNFConverter.to_cnf (CNFConverter.init
      { productions := [("S", [["A", "B"], ["a"]]), ("A", [["a"]]), ("B", [["b"]])]
        terminals := ["a", "b"]
        non_terminals := ["S", "A", "B"]
        start_symbol := some "S" })).1.terminals = ["a", "b"] ∧
    (∀ x, x ∈ (CNFConverter.to_cnf (CNFConverter.init
      { productions := [("S", [["A", "B"], ["a"]]), ("A", [["a"]]), ("B", [["b"]])]
        terminals := ["a", "b"]
        non_terminals := ["S", "A", "B"]
        start_symbol := some "S" })).1.non_terminals ↔
      x ∈ (["S", "A", "B"] : List String)) ∧
    (CNFConverter.to_cnf (CNFConverter.init
      { productions := [("S", [["A", "B"], ["a"]]), ("A", [["a"]]), ("B", [["b"]])]
        terminals := ["a", "b"]
        non_terminals := ["S", "A", "B"]
        start_symbol := some "S" })).1.start_symbol = some "S" ∧
    (CNFConverter.to_cnf (CNFConverter.init
      { productions := [("S", [["A", "B"], ["a"]]), ("A", [["a"]]), ("B", [["b"]])]
        terminals := ["a", "b"]
        non_terminals := ["S", "A", "B"]
        start_symbol := some "S" })).2.2.new_var_counter = 0 :=
  to_cnf_identity_on_clean_cnf
    { productions := [("S", [["A", "B"], ["a"]]), ("A", [["a"]]), ("B", [["b"]])]
      terminals := ["a", "b"]
      non_terminals := ["S", "A", "B"]
      start_symbol := some "S" }
    (by decide) (by decide) (by decide) (by decide) (by decide) (by decide)
    (by decide) (by decide) (by decide)
